import Mathlib

/-!
# Transaction priority of the union node (uniond/app/app.go)

A shallow embedding of the mempool configuration built in `NewUnionApp`:
the priority-address list read from `MEMPOOL_PRIORITY`, the `GetTxPriority`
closure handed to the priority mempool, and the default policy it wraps.

Go values are embedded as follows.
* `[]byte` is `List Nat`, `string` is `String`, `int64` is `Int`.
* A Go call that returns `(T, error)` is an `Except String T`.
* A Go function that may panic returns `Except String T`, the error being the
  panic value.
-/

set_option autoImplicit false

namespace UnionApp

/-! ## Data model -/

/-- A signer address, `[]byte` in the source. -/
abbrev Address := List Nat

/-- The part of `sdk.Tx` the priority closure looks at: the outcome of
`tx.GetSenders()`; `body` stands for the rest of the transaction. -/
structure Tx where
  GetSenders : Except String (List Address)
  body : Nat

/-- The part of the `context.Context` the default policy looks at. -/
structure Context where
  priority : Int

/-- The `mempool.TxPriority[int64]` record of the default policy. -/
structure TxPriority where
  GetTxPriority : Context → Tx → Int
  Compare : Int → Int → Int
  MinValue : Int

/-- The address codec method `BytesToString`, a fallible map from bytes to text. -/
abbrev AddressCodec := Address → Except String String

/-! ## Library functions called by the closure -/

/-- The comparison `skiplist.Int64.Compare` used by `mempool.NewDefaultTxPriority`. -/
def Int64Compare (a b : Int) : Int :=
  if a > b then 1 else if a = b then 0 else -1

/-- The record returned by `mempool.NewDefaultTxPriority()`: the priority is the
one carried by the context, compared as integers. -/
def NewDefaultTxPriority : TxPriority where
  GetTxPriority := fun goCtx _ => goCtx.priority
  Compare := Int64Compare
  MinValue := -(2 ^ 63)

/-- The loop of `strings.Split` for a one-character separator: `cur` collects
(reversed) the characters since the last separator. -/
def SplitLoop (sep : Char) : List Char → List Char → List String
  | cur, [] => [String.mk cur.reverse]
  | cur, c :: cs =>
    if c = sep then String.mk cur.reverse :: SplitLoop sep [] cs
    else SplitLoop sep (c :: cur) cs

/-- The call `strings.Split(s, sep)` for a one-character separator. -/
def Split (s : String) (sep : Char) : List String :=
  SplitLoop sep [] s.data

/-- The method `Bech32Codec.BytesToString` of the address codec configured in
`NewUnionApp`: the empty byte string is encoded as the empty text; every other
input goes through `ConvertAndEncode`, taken here as a parameter, and an input
longer than 255 bytes (`MaxAddrLen`) is then refused with an error. -/
def Bech32BytesToString (ConvertAndEncode : String → Address → Except String String)
    (hrp : String) : AddressCodec :=
  fun bz =>
    if bz.length = 0 then .ok ""
    else
      match ConvertAndEncode hrp bz with
      | .error e => .error e
      | .ok text =>
        if bz.length > 255 then
          .error ("address max length is 255, got " ++ toString bz.length)
        else .ok text

/-! ## The code of `NewUnionApp` -/

/-- The line `priorityAddresses := strings.Split(os.Getenv("MEMPOOL_PRIORITY"), ",")`;
`Getenv` is the process environment, the empty string for an unset variable. -/
def priorityAddresses (Getenv : String → String) : List String :=
  Split (Getenv "MEMPOOL_PRIORITY") ','

/-- The inner loop `for _, prioritySender := range priorityAddresses`: `true`
when the comparison `unionSender == prioritySender` succeeds for an entry, which
is where the closure executes `return 100`. -/
def priorityLoop (unionSender : String) : List String → Bool
  | [] => false
  | prioritySender :: rest =>
    if unionSender = prioritySender then true else priorityLoop unionSender rest

/-- The outer loop `for _, sender := range senders`. The result is
`.error "impossible"` for the panic, `.ok (some 100)` for the early return and
`.ok none` when the loop runs to its end. -/
def senderLoop (BytesToString : AddressCodec) (priorityAddresses : List String) :
    List Address → Except String (Option Int)
  | [] => .ok none
  | sender :: rest =>
    match BytesToString sender with
    | .error _ => .error "impossible"
    | .ok unionSender =>
      if priorityLoop unionSender priorityAddresses then .ok (some 100)
      else senderLoop BytesToString priorityAddresses rest

/-- The closure `GetTxPriority` of the mempool configuration, as a function of
the variables it captures (`signingCtx.AddressCodec()`, `priorityAddresses`,
`parentTxPriority`) and of its arguments. -/
def GetTxPriority (BytesToString : AddressCodec) (priorityAddresses : List String)
    (parentTxPriority : TxPriority) (goCtx : Context) (tx : Tx) : Except String Int :=
  match tx.GetSenders with
  | .ok senders =>
    match senderLoop BytesToString priorityAddresses senders with
    | .error e => .error e
    | .ok (some v) => .ok v
    | .ok none => .ok (parentTxPriority.GetTxPriority goCtx tx)
  | .error _ => .ok (parentTxPriority.GetTxPriority goCtx tx)

/-- The `mempool.TxPriority[int64]` record passed to `mempool.NewPriorityMempool`:
the closure together with `Compare` and `MinValue` of `parentTxPriority`. -/
structure UnionTxPriority where
  GetTxPriority : Context → Tx → Except String Int
  Compare : Int → Int → Int
  MinValue : Int

/-- The process state outside the closure: the environment variables. -/
structure World where
  Getenv : String → String

/-- The `TxPriority` literal of the configuration, for a given captured list:
`GetTxPriority` is the closure, `Compare` and `MinValue` are those of
`parentTxPriority := mempool.NewDefaultTxPriority()`. -/
def mempoolTxPriority (BytesToString : AddressCodec) (priorityAddresses : List String) :
    UnionTxPriority where
  GetTxPriority := GetTxPriority BytesToString priorityAddresses NewDefaultTxPriority
  Compare := NewDefaultTxPriority.Compare
  MinValue := NewDefaultTxPriority.MinValue

/-- The mempool configuration as `NewUnionApp` builds it in the world `w`: the
environment is read here, once, and the list is captured by the closure. -/
def NewUnionApp (BytesToString : AddressCodec) (w : World) : UnionTxPriority :=
  mempoolTxPriority BytesToString (priorityAddresses w.Getenv)

/-- Whether the signer `sender` encodes to an entry of the list. -/
def signerListed (BytesToString : AddressCodec) (priorityAddresses : List String)
    (sender : Address) : Bool :=
  match BytesToString sender with
  | .ok unionSender => decide (unionSender ∈ priorityAddresses)
  | .error _ => false

/-- Whether the transaction has a signer in the list: extraction succeeds and
some extracted signer encodes to an entry of the list. -/
def hasListedSigner (BytesToString : AddressCodec) (priorityAddresses : List String)
    (tx : Tx) : Bool :=
  match tx.GetSenders with
  | .ok senders => senders.any (signerListed BytesToString priorityAddresses)
  | .error _ => false

/-- The state that the statements of `NewUnionApp` and of the closure can reach:
the process environment behind `os.Getenv` and the variable `priorityAddresses`,
which the closure captures by reference. -/
structure ProcState where
  Getenv : String → String
  priorityAddresses : List String

/-- The statement `priorityAddresses := strings.Split(os.Getenv("MEMPOOL_PRIORITY"), ",")`
of `NewUnionApp` as a step on the state; it runs once, when the mempool is
constructed. -/
def NewUnionApp.assignPriorityAddresses (σ : ProcState) : ProcState where
  Getenv := σ.Getenv
  priorityAddresses := Split (σ.Getenv "MEMPOOL_PRIORITY") ','

/-- A later `os.Setenv(key, value)` anywhere in the process. -/
def Setenv (σ : ProcState) (key value : String) : ProcState where
  Getenv := fun k => if k = key then value else σ.Getenv k
  priorityAddresses := σ.priorityAddresses

/-- The inner loop of the closure, statement by statement on the state: the
comparison reads its two operands and writes nothing. -/
def priorityLoopSt (unionSender : String) : List String → ProcState → Bool × ProcState
  | [], σ => (false, σ)
  | prioritySender :: rest, σ =>
    if unionSender = prioritySender then (true, σ) else priorityLoopSt unionSender rest σ

/-- The outer loop of the closure, statement by statement on the state: each
iteration encodes the sender and then evaluates the range expression
`priorityAddresses`, a read of the captured variable in the current state. -/
def senderLoopSt (BytesToString : AddressCodec) :
    List Address → ProcState → Except String (Option Int) × ProcState
  | [], σ => (.ok none, σ)
  | sender :: rest, σ =>
    match BytesToString sender with
    | .error _ => (.error "impossible", σ)
    | .ok unionSender =>
      match priorityLoopSt unionSender σ.priorityAddresses σ with
      | (true, σ2) => (.ok (some 100), σ2)
      | (false, σ2) => senderLoopSt BytesToString rest σ2

/-- The body of the closure `GetTxPriority`, statement by statement on the state:
the result of the call and the state after it. -/
def GetTxPrioritySt (BytesToString : AddressCodec) (parentTxPriority : TxPriority)
    (goCtx : Context) (tx : Tx) (σ : ProcState) : Except String Int × ProcState :=
  match tx.GetSenders with
  | .ok senders =>
    match senderLoopSt BytesToString senders σ with
    | (.error e, σ2) => (.error e, σ2)
    | (.ok (some v), σ2) => (.ok v, σ2)
    | (.ok none, σ2) => (.ok (parentTxPriority.GetTxPriority goCtx tx), σ2)
  | .error _ => (.ok (parentTxPriority.GetTxPriority goCtx tx), σ)

/-! ## The priority mempool

`mempool.NewPriorityMempool` is not part of `app.go`, which only configures it.
Its behaviour is modelled from sections 3 and 4 of the specification. -/

/-- Modelled from the spec: the Transaction Entry record of the mempool
(`mempool.NewPriorityMempool` is only called in the source), keyed by
`(sender, nonce)`. -/
structure Entry where
  sender : Address
  nonce : Nat
  priority : Int
  tieBreak : Nat
  payload : List Nat
  deriving DecidableEq

/-- Modelled from the spec: the SenderQueue of the missing mempool, one sender's
entries in ascending nonce order and `expectedNonce`, the lowest nonce not yet
removed. -/
structure SenderQueue where
  entries : List Entry
  expectedNonce : Nat

/-- Modelled from the spec: the Mempool state of the missing mempool, the mapping
from senders to SenderQueues, the PriorityIndex (at most one entry per sender)
and `totalCount`. -/
structure Mempool where
  queues : Address → SenderQueue
  index : List Entry
  totalCount : Nat

/-- Modelled from the spec: the errors of `Insert` of the missing mempool, a
transaction without a parseable sender and nonce, a duplicate nonce, and a
panic of the priority function. -/
inductive MempoolError where
  | Unparseable
  | DuplicateNonce
  | PriorityPanic (msg : String)
  deriving DecidableEq

/-- Modelled from the spec: a transaction as the missing mempool facade receives
it, the `sdk.Tx` the priority function reads, the sender and nonce when they
parse, the tie-break key and the payload. -/
structure PoolTx where
  tx : Tx
  signer : Option (Address × Nat)
  tieBreak : Nat
  payload : List Nat

/-- Modelled from the spec: the empty state of the missing mempool, every
SenderQueue empty with `expectedNonce` 0. -/
def Mempool.empty : Mempool where
  queues := fun _ => ⟨[], 0⟩
  index := []
  totalCount := 0

/-- Modelled from the spec: lookup in a SenderQueue of the missing mempool, the
entry stored at a nonce. -/
def SenderQueue.entryAt (q : SenderQueue) (nonce : Nat) : Option Entry :=
  q.entries.find? (fun x => decide (x.nonce = nonce))

/-- Modelled from the spec: `head()` of the missing SenderQueue, the entry at
`expectedNonce` if present. -/
def SenderQueue.head (q : SenderQueue) : Option Entry :=
  q.entryAt q.expectedNonce

/-- Modelled from the spec: the list part of `insert(nonce, entry)` of the
missing SenderQueue. The entry goes to its place in ascending nonce order; at an
occupied nonce it replaces the old entry only if its priority is strictly
greater under `Compare`, and `none` is the DuplicateNonce condition. -/
def queueInsert (Compare : Int → Int → Int) (e : Entry) : List Entry → Option (List Entry)
  | [] => some [e]
  | x :: xs =>
    if e.nonce < x.nonce then some (e :: x :: xs)
    else if e.nonce = x.nonce then
      (if Compare e.priority x.priority > 0 then some (e :: xs) else none)
    else (queueInsert Compare e xs).map (fun l => x :: l)

/-- Modelled from the spec: the ranking of the missing PriorityIndex, priority
descending under `Compare`, then tie-break ascending. -/
def rankedAbove (Compare : Int → Int → Int) (a b : Entry) : Bool :=
  decide (Compare a.priority b.priority > 0) ||
    (decide (Compare a.priority b.priority = 0) && decide (a.tieBreak < b.tieBreak))

/-- Modelled from the spec: `upsert(entry)` of the missing PriorityIndex, insert
or replace the entry associated with the sender of `e`. -/
def upsert (index : List Entry) (e : Entry) : List Entry :=
  e :: index.filter (fun x => decide (x.sender ≠ e.sender))

/-- Modelled from the spec: the search of the missing PriorityIndex for its
highest-ranked entry, `best` being the highest-ranked entry seen so far. -/
def maxEntry (Compare : Int → Int → Int) : Entry → List Entry → Entry
  | best, [] => best
  | best, x :: xs => maxEntry Compare (if rankedAbove Compare x best then x else best) xs

/-- Modelled from the spec: `popMax()` of the missing PriorityIndex, remove and
return the highest-ranked entry; `none` is the failure on an empty index. -/
def popMax (Compare : Int → Int → Int) : List Entry → Option (Entry × List Entry)
  | [] => none
  | x :: xs => some (maxEntry Compare x xs, (x :: xs).erase (maxEntry Compare x xs))

/-- Modelled from the spec: `Insert(tx)` of the missing mempool facade. It checks
that sender and nonce parse, computes the priority with the configured
`GetTxPriority`, inserts into the sender's queue and, when the new entry sits
at `expectedNonce`, upserts it into the PriorityIndex. -/
def Insert (cfg : UnionTxPriority) (m : Mempool) (goCtx : Context) (p : PoolTx) :
    Except MempoolError Mempool :=
  match p.signer with
  | none => .error .Unparseable
  | some (sender, nonce) =>
    match cfg.GetTxPriority goCtx p.tx with
    | .error msg => .error (.PriorityPanic msg)
    | .ok priority =>
      let e : Entry := ⟨sender, nonce, priority, p.tieBreak, p.payload⟩
      let q := m.queues sender
      match queueInsert cfg.Compare e q.entries with
      | none => .error .DuplicateNonce
      | some entries =>
        .ok { queues := fun s => if s = sender then ⟨entries, q.expectedNonce⟩ else m.queues s
              index := if nonce = q.expectedNonce then upsert m.index e else m.index
              totalCount := m.totalCount + entries.length - q.entries.length }

/-- Modelled from the spec: `CountTx()` of the missing mempool facade. -/
def CountTx (m : Mempool) : Nat :=
  m.totalCount

/-- Modelled from the spec: the next head of a sender in `Select` of the missing
mempool, after the conceptual removal of the yielded entry `e`: the entry of
that sender at the next nonce, if present. -/
def nextHead (m : Mempool) (e : Entry) : Option Entry :=
  (m.queues e.sender).entryAt (e.nonce + 1)

/-- Modelled from the spec: the index after a yield of `e` in `Select` of the
missing mempool, `rest` with the next head of the sender upserted. -/
def promote (m : Mempool) (rest : List Entry) (e : Entry) : List Entry :=
  match nextHead m e with
  | some n => upsert rest n
  | none => rest

/-- Modelled from the spec: the loop of `Select` of the missing mempool on a
snapshot `index`: pop the maximum, yield it, promote the next head of its
sender. Each item of the result is the index at the moment of a yield
together with the entry yielded. -/
def selectLoop (Compare : Int → Int → Int) (m : Mempool) :
    Nat → List Entry → List (List Entry × Entry)
  | 0, _ => []
  | fuel + 1, index =>
    match popMax Compare index with
    | none => []
    | some (e, rest) => (index, e) :: selectLoop Compare m fuel (promote m rest e)

/-- Modelled from the spec: the number of entries of the sender of `e` that the
missing mempool holds above the nonce of `e`. -/
def pending (m : Mempool) (e : Entry) : Nat :=
  ((m.queues e.sender).entries.filter (fun x => decide (e.nonce < x.nonce))).length

/-- Modelled from the spec: a bound on the number of yields of `Select` of the
missing mempool from the snapshot `index`. -/
def selectFuel (m : Mempool) (index : List Entry) : Nat :=
  (index.map (fun e => 1 + pending m e)).sum

/-- Modelled from the spec: the run of `Select` of the missing mempool, the
index at each yield with the entry yielded. -/
def selectTrace (cfg : UnionTxPriority) (m : Mempool) : List (List Entry × Entry) :=
  selectLoop cfg.Compare m (selectFuel m m.index) m.index

/-- Modelled from the spec: the entries `Select` of the missing mempool yields,
in order. -/
def SelectEntries (cfg : UnionTxPriority) (m : Mempool) : List Entry :=
  (selectTrace cfg m).map (fun item => item.2)

/-- Modelled from the spec: `Select()` of the missing mempool facade, the
payloads in the order of the yields. -/
def Select (cfg : UnionTxPriority) (m : Mempool) : List (List Nat) :=
  (SelectEntries cfg m).map (fun e => e.payload)

/-! ## Sample data -/

/-- A codec for examples: one-byte addresses below 26 are encoded as one letter,
the empty address as the empty text (as `Bech32BytesToString` does), and every
other input is an encoding error. -/
def sampleCodec : AddressCodec := fun bz =>
  match bz with
  | [] => .ok ""
  | [n] => if n < 26 then .ok (String.mk [Char.ofNat (97 + n)]) else .error "encoding failed"
  | _ => .error "encoding failed"

/-- A signer of 256 bytes, one byte more than `Bech32Codec.BytesToString` accepts. -/
def longSigner : Address := List.replicate 256 255

/-- An encoder for examples in the place of `ConvertAndEncode`: it never fails. -/
def sampleEncode : String → Address → Except String String := fun hrp bz =>
  .ok (hrp ++ "1" ++ String.mk (bz.map (fun b => Char.ofNat (97 + b % 26))))

/-- A mempool state for examples: the sender `[0]` holds nonces 0 and 1 with
priorities 1 and 100, the sender `[1]` holds nonce 0 with priority 5. -/
def sampleMempool : Mempool where
  queues := fun s =>
    if s = [0] then ⟨[⟨[0], 0, 1, 0, [10]⟩, ⟨[0], 1, 100, 0, [11]⟩], 0⟩
    else if s = [1] then ⟨[⟨[1], 0, 5, 0, [20]⟩], 0⟩
    else ⟨[], 0⟩
  index := [⟨[0], 0, 1, 0, [10]⟩, ⟨[1], 0, 5, 0, [20]⟩]
  totalCount := 3

/-- Modelled from the spec: the part of the data model of the missing mempool that
says a SenderQueue holds entries of its own sender only. -/
def Mempool.Keyed (m : Mempool) : Prop :=
  ∀ s, ∀ x ∈ (m.queues s).entries, x.sender = s

/-! ## Removal, invariants and runs of the mempool -/

/-- Modelled from the spec: `remove(nonce)` of the missing SenderQueue: delete the
entry; if the removed nonce was `expectedNonce`, the next nonce becomes the
expected one, whether it is present or not. -/
def SenderQueue.remove (q : SenderQueue) (nonce : Nat) : SenderQueue where
  entries := q.entries.filter (fun x => decide (x.nonce ≠ nonce))
  expectedNonce := if nonce = q.expectedNonce then nonce + 1 else q.expectedNonce

/-- Modelled from the spec: the state of the missing mempool after the removal of
the entry found at `(sender, nonce)`: the entry leaves the SenderQueue and, if
it was the executable head, the new head is promoted into the PriorityIndex,
or the sender is deregistered if there is none. -/
def removeAt (m : Mempool) (sender : Address) (nonce : Nat) : Mempool where
  queues := fun s => if s = sender then (m.queues sender).remove nonce else m.queues s
  index :=
    if nonce = (m.queues sender).expectedNonce then
      match ((m.queues sender).remove nonce).head with
      | some h => upsert m.index h
      | none => m.index.filter (fun x => decide (x.sender ≠ sender))
    else m.index
  totalCount := m.totalCount - 1

/-- Modelled from the spec: `Remove(tx)` of the missing mempool facade. It locates
`(sender, nonce)`; if absent it succeeds as a no-op; otherwise it removes the
entry as `removeAt` does. -/
def Remove (m : Mempool) (p : PoolTx) : Except MempoolError Mempool :=
  match p.signer with
  | none => .ok m
  | some (sender, nonce) =>
    match (m.queues sender).entryAt nonce with
    | none => .ok m
    | some _ => .ok (removeAt m sender nonce)

/-- Modelled from the spec: `Insert` of the missing mempool facade as a step on
the state: on an error the state is the one before the call. -/
def insertStep (cfg : UnionTxPriority) (m : Mempool) (goCtx : Context) (p : PoolTx) :
    Mempool × Option MempoolError :=
  match Insert cfg m goCtx p with
  | .ok m2 => (m2, none)
  | .error e => (m, some e)

/-- Modelled from the spec: a sequence of `Insert` calls on the missing mempool,
stopping at the first error. -/
def insertAll (cfg : UnionTxPriority) : Mempool → List (Context × PoolTx) →
    Except MempoolError Mempool
  | m, [] => .ok m
  | m, (goCtx, p) :: rest =>
    match Insert cfg m goCtx p with
    | .ok m2 => insertAll cfg m2 rest
    | .error e => .error e

/-- Modelled from the spec: a sequence of `Remove` calls on the missing mempool,
stopping at the first error. -/
def removeAll : Mempool → List PoolTx → Except MempoolError Mempool
  | m, [] => .ok m
  | m, p :: rest =>
    match Remove m p with
    | .ok m2 => removeAll m2 rest
    | .error e => .error e

/-- Modelled from the spec: the PriorityIndex of the missing mempool holds at most
one entry per sender. -/
def SenderUnique (index : List Entry) : Prop :=
  index.Pairwise (fun x y => x.sender ≠ y.sender)

/-- Modelled from the spec: a SenderQueue of the missing mempool is in ascending
nonce order, no nonce twice. -/
def NonceSorted (l : List Entry) : Prop :=
  l.Pairwise (fun x y => x.nonce < y.nonce)

/-- Modelled from the spec: the entries of the PriorityIndex of the missing
mempool that belong to one sender, the executable entries of that sender. -/
def executableOf (m : Mempool) (sender : Address) : List Entry :=
  m.index.filter (fun x => decide (x.sender = sender))

/-- Modelled from the spec: the state `m` of the missing mempool holds exactly the
keys `(sender, nonce)` of the list `S`, each once, and `totalCount` counts
them. -/
def Mempool.Tracks (m : Mempool) (S : List (Address × Nat)) : Prop :=
  (∀ s n, (∃ x ∈ (m.queues s).entries, x.nonce = n) ↔ (s, n) ∈ S) ∧
  S.Nodup ∧ m.totalCount = S.length

/-- Three inserts for examples: the sender `[0]` sends nonces 0 and 1, the sender
`[1]` sends nonce 0. -/
def sampleInserts : List (Context × PoolTx) :=
  [(⟨1⟩, ⟨⟨.ok [[1]], 0⟩, some ([0], 0), 0, [10]⟩),
   (⟨5⟩, ⟨⟨.ok [[1]], 0⟩, some ([1], 0), 0, [20]⟩),
   (⟨100⟩, ⟨⟨.ok [[1]], 0⟩, some ([0], 1), 0, [11]⟩)]

/-- The state after `sampleInserts` into the empty mempool. -/
def sampleInserted : Mempool :=
  match insertAll (mempoolTxPriority sampleCodec ["a"]) Mempool.empty sampleInserts with
  | .ok m => m
  | .error _ => Mempool.empty

/-! ## Module accounts and module orders -/

/-- The name constants of the imported packages that `app.go` refers to, as
parameters: the `ModuleName` of each module package (the field carries the
name of the package), the account names and the permission names. -/
structure Names where
  capabilitytypes : String
  accounts : String
  authtypes : String
  banktypes : String
  distrtypes : String
  stakingtypes : String
  slashingtypes : String
  govtypes : String
  minttypes : String
  genutiltypes : String
  ibctransfertypes : String
  ibcexported : String
  evidencetypes : String
  authz : String
  feegrant : String
  group : String
  paramstypes : String
  upgradetypes : String
  vestingtypes : String
  consensusparamtypes : String
  pooltypes : String
  wasmtypes : String
  FeeCollectorName : String
  StreamAccount : String
  ProtocolPoolDistrAccount : String
  BondedPoolName : String
  NotBondedPoolName : String
  Minter : String
  Burner : String
  Staking : String

/-- The map literal `maccPerms`, module account permissions, in the order of the
source. -/
def maccPerms (c : Names) : List (String × List String) :=
  [(c.FeeCollectorName, []),
   (c.distrtypes, []),
   (c.pooltypes, []),
   (c.StreamAccount, []),
   (c.ProtocolPoolDistrAccount, []),
   (c.minttypes, [c.Minter]),
   (c.BondedPoolName, [c.Burner, c.Staking]),
   (c.NotBondedPoolName, [c.Burner, c.Staking]),
   (c.govtypes, [c.Burner]),
   (c.ibctransfertypes, [c.Minter, c.Burner]),
   (c.wasmtypes, [c.Burner])]

/-- A Go `map[string]bool`: the value stored at each key, `none` for a key that
is not in the map. -/
abbrev AddrMap := String → Option Bool

/-- The call `make(map[string]bool)`. -/
def AddrMap.make : AddrMap := fun _ => none

/-- The assignment `m[k] = v`. -/
def AddrMap.set (m : AddrMap) (k : String) (v : Bool) : AddrMap :=
  fun x => if x = k then some v else m x

/-- The call `delete(m, k)`. -/
def AddrMap.delete (m : AddrMap) (k : String) : AddrMap :=
  fun x => if x = k then none else m x

/-- The loop `for acc := range maccPerms` of `ModuleAccountAddrs` over the keys in
the order `keys`; `moduleAddress acc` stands for
`authtypes.NewModuleAddress(acc).String()`. -/
def rangeLoop (moduleAddress : String → String) : List String → AddrMap → AddrMap
  | [], modAccAddrs => modAccAddrs
  | acc :: rest, modAccAddrs =>
    rangeLoop moduleAddress rest (modAccAddrs.set (moduleAddress acc) true)

/-- The method `ModuleAccountAddrs`. -/
def ModuleAccountAddrs (c : Names) (moduleAddress : String → String) : AddrMap :=
  rangeLoop moduleAddress ((maccPerms c).map (fun kv => kv.1)) AddrMap.make

/-- The method `BlockedModuleAccountAddrs`. -/
def BlockedModuleAccountAddrs (c : Names) (moduleAddress : String → String) : AddrMap :=
  (ModuleAccountAddrs c moduleAddress).delete (moduleAddress c.govtypes)

/-- The arguments of `app.ModuleManager.SetOrderBeginBlockers`. -/
def orderBeginBlockers (c : Names) : List String :=
  [c.capabilitytypes, c.minttypes, c.distrtypes, c.pooltypes, c.slashingtypes,
   c.evidencetypes, c.stakingtypes, c.authtypes, c.banktypes, c.govtypes,
   c.ibctransfertypes, c.ibcexported, c.genutiltypes, c.authz, c.feegrant, c.group,
   c.paramstypes, c.vestingtypes, c.consensusparamtypes, c.wasmtypes]

/-- The slice `genesisModuleOrder`. -/
def genesisModuleOrder (c : Names) : List String :=
  [c.capabilitytypes, c.accounts, c.authtypes, c.banktypes, c.distrtypes, c.stakingtypes,
   c.slashingtypes, c.govtypes, c.minttypes, c.genutiltypes, c.ibctransfertypes,
   c.ibcexported, c.evidencetypes, c.authz, c.feegrant, c.group, c.paramstypes,
   c.upgradetypes, c.vestingtypes, c.consensusparamtypes, c.pooltypes, c.wasmtypes]

/-- The order fields of `module.Manager` that the `SetOrder...` calls assign. -/
structure ModuleManager where
  OrderBeginBlockers : List String
  OrderInitGenesis : List String
  OrderExportGenesis : List String

/-- The module manager after the calls `SetOrderBeginBlockers(...)`,
`SetOrderInitGenesis(genesisModuleOrder...)` and
`SetOrderExportGenesis(genesisModuleOrder...)` of `NewUnionApp`. -/
def NewUnionApp.ModuleManager (c : Names) : ModuleManager where
  OrderBeginBlockers := orderBeginBlockers c
  OrderInitGenesis := genesisModuleOrder c
  OrderExportGenesis := genesisModuleOrder c

/-- The values of the name constants in the imported packages. -/
def sdkNames : Names where
  capabilitytypes := "capability"
  accounts := "accounts"
  authtypes := "auth"
  banktypes := "bank"
  distrtypes := "distribution"
  stakingtypes := "staking"
  slashingtypes := "slashing"
  govtypes := "gov"
  minttypes := "mint"
  genutiltypes := "genutil"
  ibctransfertypes := "transfer"
  ibcexported := "ibc"
  evidencetypes := "evidence"
  authz := "authz"
  feegrant := "feegrant"
  group := "group"
  paramstypes := "params"
  upgradetypes := "upgrade"
  vestingtypes := "vesting"
  consensusparamtypes := "consensus"
  pooltypes := "protocolpool"
  wasmtypes := "wasm"
  FeeCollectorName := "fee_collector"
  StreamAccount := "stream_acc"
  ProtocolPoolDistrAccount := "protocolpool_distr"
  BondedPoolName := "bonded_tokens_pool"
  NotBondedPoolName := "not_bonded_tokens_pool"
  Minter := "minter"
  Burner := "burner"
  Staking := "staking"

end UnionApp

namespace UnionApp

/-! ## Lemmas on the two loops -/

theorem priorityLoop_eq_true_iff (unionSender : String) (l : List String) :
    priorityLoop unionSender l = true ↔ unionSender ∈ l := by
  induction l with
  | nil => simp [priorityLoop]
  | cons p rest ih =>
    by_cases h : unionSender = p
    · simp [priorityLoop, h]
    · simp [priorityLoop, h, ih]

theorem priorityLoop_eq_false_iff (unionSender : String) (l : List String) :
    priorityLoop unionSender l = false ↔ unionSender ∉ l := by
  rw [← priorityLoop_eq_true_iff]
  cases priorityLoop unionSender l <;> simp

/-- A signer that encodes to a listed address ends the outer loop with 100 as
soon as every signer before it has been encoded. -/
theorem senderLoop_hit (codec : AddressCodec) (prio : List String)
    (pre post : List Address) (s : Address) (u : String)
    (hpre : ∀ a ∈ pre, ∃ v, codec a = .ok v) (hu : codec s = .ok u) (hmem : u ∈ prio) :
    senderLoop codec prio (pre ++ s :: post) = .ok (some 100) := by
  induction pre with
  | nil =>
    have h := (priorityLoop_eq_true_iff u prio).2 hmem
    simp [senderLoop, hu, h]
  | cons a rest ih =>
    obtain ⟨v, hv⟩ := hpre a (List.mem_cons_self a rest)
    have ih2 := ih (fun b hb => hpre b (List.mem_cons_of_mem a hb))
    by_cases hp : priorityLoop v prio = true
    · simp [senderLoop, hv, hp]
    · simp [senderLoop, hv, hp, ih2]

/-- When every signer encodes to an address outside the list the outer loop
runs to its end. -/
theorem senderLoop_miss (codec : AddressCodec) (prio : List String) (senders : List Address)
    (h : ∀ a ∈ senders, ∃ v, codec a = .ok v ∧ v ∉ prio) :
    senderLoop codec prio senders = .ok none := by
  induction senders with
  | nil => rfl
  | cons a rest ih =>
    obtain ⟨v, hv, hn⟩ := h a (List.mem_cons_self a rest)
    have hp := (priorityLoop_eq_false_iff v prio).2 hn
    have ih2 := ih (fun b hb => h b (List.mem_cons_of_mem a hb))
    simp [senderLoop, hv, hp, ih2]

/-- The outer loop never produces a value other than 100. -/
theorem senderLoop_some (codec : AddressCodec) (prio : List String) (senders : List Address)
    (v : Int) (h : senderLoop codec prio senders = .ok (some v)) : v = 100 := by
  induction senders with
  | nil => simp [senderLoop] at h
  | cons a rest ih =>
    unfold senderLoop at h
    cases hc : codec a with
    | error e => simp [hc] at h
    | ok w =>
      simp only [hc] at h
      by_cases hp : priorityLoop w prio = true
      · simp [hp] at h
        exact h.symm
      · simp [hp] at h
        exact ih h

/-! ## The priority closure -/

/-- C1 (any-signer override): when signer extraction succeeds, some signer
encodes to an entry of the priority list and every signer before it encodes
successfully, `GetTxPriority` returns exactly 100, whatever the other signers
are. -/
theorem GetTxPriority_any_signer (codec : AddressCodec) (prio : List String)
    (parent : TxPriority) (goCtx : Context) (tx : Tx)
    (pre post : List Address) (s : Address) (u : String)
    (hs : tx.GetSenders = .ok (pre ++ s :: post))
    (hpre : ∀ a ∈ pre, ∃ v, codec a = .ok v)
    (hu : codec s = .ok u) (hmem : u ∈ prio) :
    GetTxPriority codec prio parent goCtx tx = .ok 100 := by
  have h := senderLoop_hit codec prio pre post s u hpre hu hmem
  simp [GetTxPriority, hs, h]

/-- Witness of C1: the second signer is listed, the first and the third are not. -/
theorem GetTxPriority_any_signer_witness :
    GetTxPriority sampleCodec ["c", "b"] NewDefaultTxPriority ⟨5⟩ ⟨.ok [[0], [1], [3]], 0⟩
      = .ok 100 :=
  GetTxPriority_any_signer sampleCodec ["c", "b"] NewDefaultTxPriority ⟨5⟩
    ⟨.ok [[0], [1], [3]], 0⟩ [[0]] [[3]] [1] "b" rfl
    (by intro a ha; simp at ha; subst ha; exact ⟨"a", rfl⟩) rfl (by decide)

/-- C2 (default fallback): when signer extraction succeeds, every signer encodes
successfully and no encoded signer address is an entry of the priority list
(in particular when there is no signer), `GetTxPriority` returns the value of
the default policy for the same context and transaction. -/
theorem GetTxPriority_default (codec : AddressCodec) (prio : List String)
    (parent : TxPriority) (goCtx : Context) (tx : Tx) (senders : List Address)
    (hs : tx.GetSenders = .ok senders)
    (h : ∀ a ∈ senders, ∃ v, codec a = .ok v ∧ v ∉ prio) :
    GetTxPriority codec prio parent goCtx tx = .ok (parent.GetTxPriority goCtx tx) := by
  have hl := senderLoop_miss codec prio senders h
  simp [GetTxPriority, hs, hl]

/-- Witness of C2: two signers that encode to `"b"` and `"c"`, neither of them in
the list `["a", "d"]`; the default policy gives 7. -/
theorem GetTxPriority_default_witness :
    GetTxPriority sampleCodec ["a", "d"] NewDefaultTxPriority ⟨7⟩ ⟨.ok [[1], [2]], 0⟩
      = .ok (NewDefaultTxPriority.GetTxPriority ⟨7⟩ ⟨.ok [[1], [2]], 0⟩) :=
  GetTxPriority_default sampleCodec ["a", "d"] NewDefaultTxPriority ⟨7⟩ ⟨.ok [[1], [2]], 0⟩
    [[1], [2]] rfl
    (by
      intro a ha
      simp at ha
      rcases ha with ha | ha
      · subst ha; exact ⟨"b", rfl, by decide⟩
      · subst ha; exact ⟨"c", rfl, by decide⟩)

/-- C3 (extraction failure is not an error): when `tx.GetSenders` returns an
error, `GetTxPriority` does not panic and returns the default policy's
priority, for every priority list. -/
theorem GetTxPriority_extraction_failure (codec : AddressCodec) (prio : List String)
    (parent : TxPriority) (goCtx : Context) (tx : Tx) (e : String)
    (hs : tx.GetSenders = .error e) :
    GetTxPriority codec prio parent goCtx tx = .ok (parent.GetTxPriority goCtx tx) := by
  simp [GetTxPriority, hs]

/-- Witness of C3: extraction fails and the list is non-empty. -/
theorem GetTxPriority_extraction_failure_witness :
    GetTxPriority sampleCodec ["a"] NewDefaultTxPriority ⟨7⟩ ⟨.error "no signers", 0⟩
      = .ok (NewDefaultTxPriority.GetTxPriority ⟨7⟩ ⟨.error "no signers", 0⟩) :=
  GetTxPriority_extraction_failure sampleCodec ["a"] NewDefaultTxPriority ⟨7⟩
    ⟨.error "no signers", 0⟩ "no signers" rfl

end UnionApp

namespace UnionApp

/-! ## Listed signers and the result of the closure -/

theorem senderLoop_none_any (codec : AddressCodec) (prio : List String) (senders : List Address)
    (h : senderLoop codec prio senders = .ok none) :
    senders.any (signerListed codec prio) = false := by
  induction senders with
  | nil => rfl
  | cons a rest ih =>
    unfold senderLoop at h
    cases hc : codec a with
    | error e => simp [hc] at h
    | ok w =>
      simp only [hc] at h
      by_cases hp : priorityLoop w prio = true
      · simp [hp] at h
      · simp [hp] at h
        have hw : w ∉ prio := fun hm => hp ((priorityLoop_eq_true_iff w prio).2 hm)
        simp [List.any_cons, signerListed, hc, hw, ih h]

theorem senderLoop_some_any (codec : AddressCodec) (prio : List String) (senders : List Address)
    (v : Int) (h : senderLoop codec prio senders = .ok (some v)) :
    senders.any (signerListed codec prio) = true := by
  induction senders with
  | nil => simp [senderLoop] at h
  | cons a rest ih =>
    unfold senderLoop at h
    cases hc : codec a with
    | error e => simp [hc] at h
    | ok w =>
      simp only [hc] at h
      by_cases hp : priorityLoop w prio = true
      · have hw : w ∈ prio := (priorityLoop_eq_true_iff w prio).1 hp
        simp [List.any_cons, signerListed, hc, hw]
      · simp [hp] at h
        simp [List.any_cons, ih h]

/-- A transaction with a listed signer for which the closure returns gets 100. -/
theorem GetTxPriority_listed (codec : AddressCodec) (prio : List String) (parent : TxPriority)
    (goCtx : Context) (tx : Tx) (v : Int)
    (hl : hasListedSigner codec prio tx = true)
    (hr : GetTxPriority codec prio parent goCtx tx = .ok v) : v = 100 := by
  unfold hasListedSigner at hl
  unfold GetTxPriority at hr
  cases hs : tx.GetSenders with
  | error e => simp [hs] at hl
  | ok senders =>
    simp only [hs] at hl hr
    cases hloop : senderLoop codec prio senders with
    | error e => simp [hloop] at hr
    | ok o =>
      cases o with
      | none =>
        have := senderLoop_none_any codec prio senders hloop
        rw [this] at hl
        exact absurd hl (by decide)
      | some x =>
        simp [hloop] at hr
        rw [← hr]
        exact senderLoop_some codec prio senders x hloop

/-- A transaction without listed signer for which the closure returns gets the
priority of the default policy. -/
theorem GetTxPriority_unlisted (codec : AddressCodec) (prio : List String) (parent : TxPriority)
    (goCtx : Context) (tx : Tx) (v : Int)
    (hl : hasListedSigner codec prio tx = false)
    (hr : GetTxPriority codec prio parent goCtx tx = .ok v) :
    v = parent.GetTxPriority goCtx tx := by
  unfold hasListedSigner at hl
  unfold GetTxPriority at hr
  cases hs : tx.GetSenders with
  | error e =>
    simp [hs] at hr
    exact hr.symm
  | ok senders =>
    simp only [hs] at hl hr
    cases hloop : senderLoop codec prio senders with
    | error e => simp [hloop] at hr
    | ok o =>
      cases o with
      | none =>
        simp [hloop] at hr
        exact hr.symm
      | some x =>
        have := senderLoop_some_any codec prio senders x hloop
        rw [this] at hl
        exact absurd hl (by decide)

/-- Whenever the closure returns on both transactions, one with a signer in the
list and one without and with a default priority below 100, the configured
`Compare` puts the first strictly above the second, in both argument orders. -/
theorem override_dominance (codec : AddressCodec) (prio : List String)
    (ctx1 ctx2 : Context) (t1 t2 : Tx) (v1 v2 : Int)
    (h1 : hasListedSigner codec prio t1 = true)
    (hr1 : (mempoolTxPriority codec prio).GetTxPriority ctx1 t1 = .ok v1)
    (h2 : hasListedSigner codec prio t2 = false)
    (hr2 : (mempoolTxPriority codec prio).GetTxPriority ctx2 t2 = .ok v2)
    (hlt : NewDefaultTxPriority.GetTxPriority ctx2 t2 < 100) :
    (mempoolTxPriority codec prio).Compare v1 v2 > 0 ∧
    (mempoolTxPriority codec prio).Compare v2 v1 < 0 := by
  have e1 := GetTxPriority_listed codec prio NewDefaultTxPriority ctx1 t1 v1 h1 hr1
  have e2 := GetTxPriority_unlisted codec prio NewDefaultTxPriority ctx2 t2 v2 h2 hr2
  rw [← e2] at hlt
  subst e1
  have hne : ¬ (v2 > 100) := by omega
  have hne2 : ¬ (v2 = 100) := by omega
  have hgt : (100 : Int) > v2 := by omega
  simp [mempoolTxPriority, NewDefaultTxPriority, Int64Compare, hne, hne2, hgt]

/-- Example of `override_dominance`: the list `["a"]`, `t1` signed by `[1]` and
`[0]`, `t2` signed by `[1]` with default priority 7. -/
theorem override_dominance_witness :
    (mempoolTxPriority sampleCodec ["a"]).Compare 100 7 > 0 ∧
    (mempoolTxPriority sampleCodec ["a"]).Compare 7 100 < 0 :=
  override_dominance sampleCodec ["a"] ⟨5⟩ ⟨7⟩ ⟨.ok [[1], [0]], 1⟩ ⟨.ok [[1]], 2⟩ 100 7
    rfl rfl rfl rfl (by decide)

end UnionApp

namespace UnionApp

/-! ## The scenario with two senders -/

/-- C5 (scenario A/B): with the priority list `[A]`, a transaction signed only by
`A` with default priority 5 gets priority 100, a transaction signed only by
`B ≠ A` with default priority 7 gets priority 7, and with both inserted at
nonce 0 into the empty mempool, in either order, `Select` yields the
transaction of `A` first and the transaction of `B` second. -/
theorem scenario_A_B (codec : AddressCodec) (a b : Address) (A B : String)
    (bodyA bodyB tA tB : Nat) (plA plB : List Nat)
    (ha : codec a = .ok A) (hb : codec b = .ok B) (hAB : A ≠ B) :
    (mempoolTxPriority codec [A]).GetTxPriority ⟨5⟩ ⟨.ok [a], bodyA⟩ = .ok 100 ∧
    (mempoolTxPriority codec [A]).GetTxPriority ⟨7⟩ ⟨.ok [b], bodyB⟩ = .ok 7 ∧
    (Insert (mempoolTxPriority codec [A]) Mempool.empty ⟨5⟩
        ⟨⟨.ok [a], bodyA⟩, some (a, 0), tA, plA⟩ >>= fun m1 =>
      Insert (mempoolTxPriority codec [A]) m1 ⟨7⟩ ⟨⟨.ok [b], bodyB⟩, some (b, 0), tB, plB⟩
        >>= fun m2 => pure (SelectEntries (mempoolTxPriority codec [A]) m2,
          Select (mempoolTxPriority codec [A]) m2))
      = .ok ([⟨a, 0, 100, tA, plA⟩, ⟨b, 0, 7, tB, plB⟩], [plA, plB]) ∧
    (Insert (mempoolTxPriority codec [A]) Mempool.empty ⟨7⟩
        ⟨⟨.ok [b], bodyB⟩, some (b, 0), tB, plB⟩ >>= fun m1 =>
      Insert (mempoolTxPriority codec [A]) m1 ⟨5⟩ ⟨⟨.ok [a], bodyA⟩, some (a, 0), tA, plA⟩
        >>= fun m2 => pure (SelectEntries (mempoolTxPriority codec [A]) m2,
          Select (mempoolTxPriority codec [A]) m2))
      = .ok ([⟨a, 0, 100, tA, plA⟩, ⟨b, 0, 7, tB, plB⟩], [plA, plB]) := by
  have hab : a ≠ b := by
    intro h
    rw [h, hb] at ha
    exact hAB (by injection ha with h2; exact h2.symm)
  have hba : b ≠ a := fun h => hab h.symm
  have hBA : B ≠ A := fun h => hAB h.symm
  have gA : GetTxPriority codec [A] NewDefaultTxPriority ⟨5⟩ ⟨.ok [a], bodyA⟩ = .ok 100 := by
    simp [GetTxPriority, senderLoop, ha, priorityLoop]
  have gB : GetTxPriority codec [A] NewDefaultTxPriority ⟨7⟩ ⟨.ok [b], bodyB⟩ = .ok 7 := by
    simp [GetTxPriority, senderLoop, hb, priorityLoop, hBA, NewDefaultTxPriority]
  have gA2 : (mempoolTxPriority codec [A]).GetTxPriority ⟨5⟩ ⟨.ok [a], bodyA⟩ = .ok 100 := gA
  have gB2 : (mempoolTxPriority codec [A]).GetTxPriority ⟨7⟩ ⟨.ok [b], bodyB⟩ = .ok 7 := gB
  have hC : (mempoolTxPriority codec [A]).Compare = Int64Compare := rfl
  refine ⟨gA, gB, ?_, ?_⟩
  · simp [Insert, gA2, gB2, hC, Mempool.empty, queueInsert, upsert, hab, hba,
      bind, Except.bind, pure, Except.pure, Select, SelectEntries, selectTrace, selectFuel,
      pending, selectLoop, popMax, maxEntry, rankedAbove, Int64Compare, promote,
      nextHead, SenderQueue.entryAt]
  · simp [Insert, gA2, gB2, hC, Mempool.empty, queueInsert, upsert, hab, hba,
      bind, Except.bind, pure, Except.pure, Select, SelectEntries, selectTrace, selectFuel,
      pending, selectLoop, popMax, maxEntry, rankedAbove, Int64Compare, promote,
      nextHead, SenderQueue.entryAt]

/-- Witness of C5: the addresses `[0]` and `[1]`, encoded as `"a"` and `"b"`. -/
theorem scenario_A_B_witness :
    (mempoolTxPriority sampleCodec ["a"]).GetTxPriority ⟨5⟩ ⟨.ok [[0]], 0⟩ = .ok 100 ∧
    (mempoolTxPriority sampleCodec ["a"]).GetTxPriority ⟨7⟩ ⟨.ok [[1]], 0⟩ = .ok 7 ∧
    (Insert (mempoolTxPriority sampleCodec ["a"]) Mempool.empty ⟨5⟩
        ⟨⟨.ok [[0]], 0⟩, some ([0], 0), 0, [10]⟩ >>= fun m1 =>
      Insert (mempoolTxPriority sampleCodec ["a"]) m1 ⟨7⟩ ⟨⟨.ok [[1]], 0⟩, some ([1], 0), 0, [11]⟩
        >>= fun m2 => pure (SelectEntries (mempoolTxPriority sampleCodec ["a"]) m2,
          Select (mempoolTxPriority sampleCodec ["a"]) m2))
      = .ok ([⟨[0], 0, 100, 0, [10]⟩, ⟨[1], 0, 7, 0, [11]⟩], [[10], [11]]) ∧
    (Insert (mempoolTxPriority sampleCodec ["a"]) Mempool.empty ⟨7⟩
        ⟨⟨.ok [[1]], 0⟩, some ([1], 0), 0, [11]⟩ >>= fun m1 =>
      Insert (mempoolTxPriority sampleCodec ["a"]) m1 ⟨5⟩ ⟨⟨.ok [[0]], 0⟩, some ([0], 0), 0, [10]⟩
        >>= fun m2 => pure (SelectEntries (mempoolTxPriority sampleCodec ["a"]) m2,
          Select (mempoolTxPriority sampleCodec ["a"]) m2))
      = .ok ([⟨[0], 0, 100, 0, [10]⟩, ⟨[1], 0, 7, 0, [11]⟩], [[10], [11]]) :=
  scenario_A_B sampleCodec [0] [1] "a" "b" 0 0 0 0 [10] [11] rfl rfl (by decide)

/-! ## Determinism and totality -/

theorem priorityLoopSt_eq (unionSender : String) (l : List String) (σ : ProcState) :
    priorityLoopSt unionSender l σ = (priorityLoop unionSender l, σ) := by
  induction l with
  | nil => rfl
  | cons p rest ih =>
    by_cases h : unionSender = p
    · simp [priorityLoopSt, priorityLoop, h]
    · simp [priorityLoopSt, priorityLoop, h, ih]

theorem senderLoopSt_eq (codec : AddressCodec) (senders : List Address) (σ : ProcState) :
    senderLoopSt codec senders σ = (senderLoop codec σ.priorityAddresses senders, σ) := by
  induction senders with
  | nil => rfl
  | cons a rest ih =>
    cases hc : codec a with
    | error e => simp [senderLoopSt, senderLoop, hc]
    | ok u =>
      by_cases hp : priorityLoop u σ.priorityAddresses = true
      · simp [senderLoopSt, senderLoop, hc, priorityLoopSt_eq, hp]
      · simp [senderLoopSt, senderLoop, hc, priorityLoopSt_eq, hp, ih]

/-- A call of the closure returns what the function `GetTxPriority` gives for the
list held by the captured variable, and leaves the state as it was. -/
theorem GetTxPrioritySt_eq (codec : AddressCodec) (parent : TxPriority) (goCtx : Context)
    (tx : Tx) (σ : ProcState) :
    GetTxPrioritySt codec parent goCtx tx σ
      = (GetTxPriority codec σ.priorityAddresses parent goCtx tx, σ) := by
  unfold GetTxPrioritySt GetTxPriority
  cases tx.GetSenders with
  | error e => rfl
  | ok senders =>
    simp only [senderLoopSt_eq]
    cases senderLoop codec σ.priorityAddresses senders with
    | error e => rfl
    | ok o =>
      cases o with
      | none => rfl
      | some v => rfl

/-- C6 (determinism, configuration fixed at construction): the statement of
`NewUnionApp` computes the list once from the environment of that moment; every
call of the closure, in every state, leaves the captured list and the
environment as they were; two calls in a row return the same result; the
result is the same in any two states that hold the same captured list, so a
later change of `MEMPOOL_PRIORITY` (or of any other variable) changes no
result; and the result is the one computed from the list built at
construction. -/
theorem GetTxPriority_deterministic (codec : AddressCodec) (parent : TxPriority)
    (σ0 : ProcState) (goCtx : Context) (tx : Tx) :
    (NewUnionApp.assignPriorityAddresses σ0).priorityAddresses
      = Split (σ0.Getenv "MEMPOOL_PRIORITY") ',' ∧
    (∀ σ : ProcState, (GetTxPrioritySt codec parent goCtx tx σ).2 = σ) ∧
    (∀ σ : ProcState,
      (GetTxPrioritySt codec parent goCtx tx (GetTxPrioritySt codec parent goCtx tx σ).2).1
        = (GetTxPrioritySt codec parent goCtx tx σ).1) ∧
    (∀ σ σ2 : ProcState, σ.priorityAddresses = σ2.priorityAddresses →
      (GetTxPrioritySt codec parent goCtx tx σ).1
        = (GetTxPrioritySt codec parent goCtx tx σ2).1) ∧
    (∀ key value : String,
      (GetTxPrioritySt codec parent goCtx tx
          (Setenv (NewUnionApp.assignPriorityAddresses σ0) key value)).1
        = (GetTxPrioritySt codec parent goCtx tx (NewUnionApp.assignPriorityAddresses σ0)).1) ∧
    (GetTxPrioritySt codec parent goCtx tx (NewUnionApp.assignPriorityAddresses σ0)).1
      = GetTxPriority codec (priorityAddresses σ0.Getenv) parent goCtx tx := by
  refine ⟨rfl, ?_, ?_, ?_, ?_, ?_⟩
  · intro σ
    rw [GetTxPrioritySt_eq]
  · intro σ
    rw [GetTxPrioritySt_eq codec parent goCtx tx σ]
    simp only
    rw [GetTxPrioritySt_eq codec parent goCtx tx σ]
  · intro σ σ2 h
    rw [GetTxPrioritySt_eq, GetTxPrioritySt_eq, h]
  · intro key value
    rw [GetTxPrioritySt_eq, GetTxPrioritySt_eq]
    rfl
  · rw [GetTxPrioritySt_eq]
    rfl

/-- The outer loop panics exactly when some signer fails to encode and no signer
before it is listed. -/
theorem senderLoop_error_iff (codec : AddressCodec) (prio : List String)
    (senders : List Address) :
    senderLoop codec prio senders = .error "impossible" ↔
      ∃ pre s post, senders = pre ++ s :: post ∧ (∃ e, codec s = .error e) ∧
        ∀ a ∈ pre, signerListed codec prio a = false := by
  induction senders with
  | nil =>
    constructor
    · intro h
      simp [senderLoop] at h
    · rintro ⟨pre, s, post, h, _⟩
      simp at h
  | cons a rest ih =>
    cases hc : codec a with
    | error e =>
      constructor
      · intro _
        exact ⟨[], a, rest, rfl, ⟨e, hc⟩, by simp⟩
      · intro _
        simp [senderLoop, hc]
    | ok u =>
      by_cases hp : priorityLoop u prio = true
      · have hu : u ∈ prio := (priorityLoop_eq_true_iff u prio).1 hp
        constructor
        · intro h
          simp [senderLoop, hc, hp] at h
        · rintro ⟨pre, s, post, h, ⟨e, he⟩, hpre⟩
          cases pre with
          | nil =>
            simp at h
            rw [← h.1, hc] at he
            cases he
          | cons b pre2 =>
            simp at h
            have := hpre b (List.mem_cons_self b pre2)
            rw [← h.1] at this
            simp [signerListed, hc, hu] at this
      · have hu : u ∉ prio := fun hm => hp ((priorityLoop_eq_true_iff u prio).2 hm)
        have hstep : senderLoop codec prio (a :: rest) = senderLoop codec prio rest := by
          simp [senderLoop, hc, hp]
        rw [hstep, ih]
        constructor
        · rintro ⟨pre, s, post, h, he, hpre⟩
          refine ⟨a :: pre, s, post, by simp [h], he, ?_⟩
          intro x hx
          rcases List.mem_cons.1 hx with hx | hx
          · subst hx
            simp [signerListed, hc, hu]
          · exact hpre x hx
        · rintro ⟨pre, s, post, h, ⟨e, he⟩, hpre⟩
          cases pre with
          | nil =>
            simp at h
            rw [← h.1, hc] at he
            cases he
          | cons b pre2 =>
            simp at h
            exact ⟨pre2, s, post, h.2, ⟨e, he⟩,
              fun x hx => hpre x (List.mem_cons_of_mem b hx)⟩

/-- The outer loop has three outcomes: the panic, the early return of 100, the end
of the loop. -/
theorem senderLoop_cases (codec : AddressCodec) (prio : List String) (senders : List Address) :
    senderLoop codec prio senders = .error "impossible" ∨
    senderLoop codec prio senders = .ok (some 100) ∨
    senderLoop codec prio senders = .ok none := by
  induction senders with
  | nil => exact Or.inr (Or.inr rfl)
  | cons a rest ih =>
    cases hc : codec a with
    | error e => left; simp [senderLoop, hc]
    | ok u =>
      by_cases hp : priorityLoop u prio = true
      · right; left; simp [senderLoop, hc, hp]
      · simpa [senderLoop, hc, hp] using ih

/-- For every codec, the closure panics with `"impossible"` when signer extraction
succeeds and some signer fails to encode with no listed signer before it, and
in every other case it returns an int64, which is 100 or the priority of the
default policy. -/
theorem GetTxPriority_total (codec : AddressCodec) (prio : List String) (parent : TxPriority)
    (goCtx : Context) (tx : Tx) :
    ((∃ pre s post, tx.GetSenders = .ok (pre ++ s :: post) ∧ (∃ e, codec s = .error e) ∧
        ∀ a ∈ pre, signerListed codec prio a = false) →
      GetTxPriority codec prio parent goCtx tx = .error "impossible") ∧
    ((¬ ∃ pre s post, tx.GetSenders = .ok (pre ++ s :: post) ∧ (∃ e, codec s = .error e) ∧
        ∀ a ∈ pre, signerListed codec prio a = false) →
      (GetTxPriority codec prio parent goCtx tx = .ok 100 ∨
       GetTxPriority codec prio parent goCtx tx = .ok (parent.GetTxPriority goCtx tx))) := by
  constructor
  · rintro ⟨pre, s, post, hs, he, hpre⟩
    have hl := (senderLoop_error_iff codec prio (pre ++ s :: post)).2
      ⟨pre, s, post, rfl, he, hpre⟩
    simp [GetTxPriority, hs, hl]
  · intro hn
    cases hs : tx.GetSenders with
    | error e => right; simp [GetTxPriority, hs]
    | ok senders =>
      rcases senderLoop_cases codec prio senders with hl | hl | hl
      · exfalso
        obtain ⟨pre, s, post, h, he, hpre⟩ := (senderLoop_error_iff codec prio senders).1 hl
        exact hn ⟨pre, s, post, by rw [hs, h], he, hpre⟩
      · left; simp [GetTxPriority, hs, hl]
      · right; simp [GetTxPriority, hs, hl]

/-- Example of `GetTxPriority_total`: the listed signer `[1]` comes before the
signer `[77]`, which `sampleCodec` does not encode, and the closure returns. -/
theorem GetTxPriority_total_witness :
    GetTxPriority sampleCodec ["b"] NewDefaultTxPriority ⟨5⟩ ⟨.ok [[0], [1], [77]], 0⟩ = .ok 100 ∨
    GetTxPriority sampleCodec ["b"] NewDefaultTxPriority ⟨5⟩ ⟨.ok [[0], [1], [77]], 0⟩
      = .ok (NewDefaultTxPriority.GetTxPriority ⟨5⟩ ⟨.ok [[0], [1], [77]], 0⟩) :=
  (GetTxPriority_total sampleCodec ["b"] NewDefaultTxPriority ⟨5⟩ ⟨.ok [[0], [1], [77]], 0⟩).2
    (by
      rintro ⟨pre, s, post, hs, ⟨e, he⟩, hpre⟩
      injection hs with hs
      match pre, hs with
      | [], hs =>
        simp at hs
        rw [← hs.1] at he
        cases he
      | [x], hs =>
        simp at hs
        rw [← hs.2.1] at he
        cases he
      | [x, y], hs =>
        simp at hs
        have := hpre y (by simp)
        rw [← hs.2.1] at this
        cases this
      | x :: y :: z :: r, hs =>
        simp at hs)

end UnionApp

namespace UnionApp

/-! ## The priority list built from the setting -/

theorem SplitLoop_length (sep : Char) (cs cur : List Char) :
    (SplitLoop sep cur cs).length = cs.count sep + 1 := by
  induction cs generalizing cur with
  | nil => simp [SplitLoop]
  | cons c rest ih =>
    by_cases h : c = sep
    · subst h
      simp [SplitLoop, ih]
    · have h2 : ¬ (c == sep) = true := by simpa using h
      simp [SplitLoop, h, ih, List.count_cons, h2]

/-- Two lists with the same encodable members give the same outer loop. -/
theorem senderLoop_congr (codec : AddressCodec) (prio prio2 : List String)
    (senders : List Address)
    (h : ∀ bz u, codec bz = .ok u → (u ∈ prio ↔ u ∈ prio2)) :
    senderLoop codec prio senders = senderLoop codec prio2 senders := by
  induction senders with
  | nil => rfl
  | cons a rest ih =>
    cases hc : codec a with
    | error e => simp [senderLoop, hc]
    | ok u =>
      have hiff := h a u hc
      have hp : priorityLoop u prio = priorityLoop u prio2 := by
        by_cases hm : u ∈ prio
        · rw [(priorityLoop_eq_true_iff u prio).2 hm,
            (priorityLoop_eq_true_iff u prio2).2 (hiff.1 hm)]
        · rw [(priorityLoop_eq_false_iff u prio).2 hm,
            (priorityLoop_eq_false_iff u prio2).2 (fun hm2 => hm (hiff.2 hm2))]
      simp [senderLoop, hc, hp, ih]

theorem GetTxPriority_congr (codec : AddressCodec) (prio prio2 : List String)
    (parent : TxPriority) (goCtx : Context) (tx : Tx)
    (h : ∀ bz u, codec bz = .ok u → (u ∈ prio ↔ u ∈ prio2)) :
    GetTxPriority codec prio parent goCtx tx = GetTxPriority codec prio2 parent goCtx tx := by
  unfold GetTxPriority
  cases tx.GetSenders with
  | error e => rfl
  | ok senders => simp only [senderLoop_congr codec prio prio2 senders h]

/-- C8 (malformed allowlist entries): for every value of the setting the list is
built, with one entry more than the setting has commas; and for every `e` that
is the encoding of no address, removing `e` from the list (its first
occurrence, or all of its occurrences) changes the result of `GetTxPriority`
for no transaction. -/
theorem malformed_entry_never_matches (codec : AddressCodec) (Getenv : String → String)
    (e : String) (parent : TxPriority) (goCtx : Context) (tx : Tx)
    (he : ∀ bz, codec bz ≠ .ok e) :
    (priorityAddresses Getenv).length = (Getenv "MEMPOOL_PRIORITY").data.count ',' + 1 ∧
    GetTxPriority codec ((priorityAddresses Getenv).erase e) parent goCtx tx
      = GetTxPriority codec (priorityAddresses Getenv) parent goCtx tx ∧
    GetTxPriority codec ((priorityAddresses Getenv).filter (fun x => decide (x ≠ e)))
        parent goCtx tx
      = GetTxPriority codec (priorityAddresses Getenv) parent goCtx tx := by
  refine ⟨SplitLoop_length ',' _ [], ?_, ?_⟩
  · apply GetTxPriority_congr
    intro bz u hu
    have hne : u ≠ e := fun h => he bz (h ▸ hu)
    exact List.mem_erase_of_ne hne
  · apply GetTxPriority_congr
    intro bz u hu
    have hne : u ≠ e := fun h => he bz (h ▸ hu)
    simp [List.mem_filter, hne]

/-- No address is encoded by `sampleCodec` as a text of two characters. -/
theorem sampleCodec_length (bz : Address) (u : String) (h : sampleCodec bz = .ok u) :
    u.length ≤ 1 := by
  match bz, h with
  | [], h =>
    injection h with h
    subst h
    decide
  | [n], h =>
    by_cases hn : n < 26
    · simp [sampleCodec, hn] at h
      subst h
      simp [String.length]
    · simp [sampleCodec, hn] at h
  | _ :: _ :: _, h => simp [sampleCodec] at h

/-- Witness of C8: the setting `"a, b"` gives the entries `"a"` and `" b"`, the
second with a leading space. -/
theorem malformed_entry_never_matches_witness :
    (priorityAddresses (fun _ => "a, b")).length
      = ((fun _ => "a, b") "MEMPOOL_PRIORITY" : String).data.count ',' + 1 ∧
    GetTxPriority sampleCodec ((priorityAddresses (fun _ => "a, b")).erase " b")
        NewDefaultTxPriority ⟨3⟩ ⟨.ok [[1], [0]], 0⟩
      = GetTxPriority sampleCodec (priorityAddresses (fun _ => "a, b"))
        NewDefaultTxPriority ⟨3⟩ ⟨.ok [[1], [0]], 0⟩ ∧
    GetTxPriority sampleCodec
        ((priorityAddresses (fun _ => "a, b")).filter (fun x => decide (x ≠ " b")))
        NewDefaultTxPriority ⟨3⟩ ⟨.ok [[1], [0]], 0⟩
      = GetTxPriority sampleCodec (priorityAddresses (fun _ => "a, b"))
        NewDefaultTxPriority ⟨3⟩ ⟨.ok [[1], [0]], 0⟩ :=
  malformed_entry_never_matches sampleCodec (fun _ => "a, b") " b" NewDefaultTxPriority ⟨3⟩
    ⟨.ok [[1], [0]], 0⟩
    (by
      intro bz h
      have := sampleCodec_length bz " b" h
      revert this
      decide)

/-- C9, evaluated at the failing input: with `MEMPOOL_PRIORITY` empty or unset
the list is `[""]`, not the empty list, and a transaction whose signer is the
empty byte string, which `Bech32Codec.BytesToString` encodes as `""`, gets
100 although the default policy gives 7. -/
theorem empty_setting_override (ConvertAndEncode : String → Address → Except String String)
    (hrp : String) :
    priorityAddresses (fun _ => "") = [""] ∧
    GetTxPriority (Bech32BytesToString ConvertAndEncode hrp) (priorityAddresses (fun _ => ""))
        NewDefaultTxPriority ⟨7⟩ ⟨.ok [[]], 0⟩ = .ok 100 ∧
    NewDefaultTxPriority.GetTxPriority ⟨7⟩ ⟨.ok [[]], 0⟩ = 7 :=
  ⟨rfl, rfl, rfl⟩

end UnionApp

namespace UnionApp

/-! ## Priority ordering of `Select` -/

theorem Int64Compare_pos_iff (a b : Int) : Int64Compare a b > 0 ↔ a > b := by
  unfold Int64Compare
  by_cases h : a > b
  · simp [h]
  · by_cases h2 : a = b
    · simp [h2]
    · simp [h, h2]

theorem Int64Compare_zero_iff (a b : Int) : Int64Compare a b = 0 ↔ a = b := by
  unfold Int64Compare
  by_cases h : a > b
  · have : a ≠ b := by omega
    simp [h, this]
  · by_cases h2 : a = b
    · simp [h2]
    · simp [h, h2]

theorem rankedAbove_iff (a b : Entry) :
    rankedAbove Int64Compare a b = true ↔
      a.priority > b.priority ∨ (a.priority = b.priority ∧ a.tieBreak < b.tieBreak) := by
  simp [rankedAbove, Int64Compare_pos_iff, Int64Compare_zero_iff]

theorem maxEntry_mem (C : Int → Int → Int) (best : Entry) (xs : List Entry) :
    maxEntry C best xs ∈ best :: xs := by
  induction xs generalizing best with
  | nil => simp [maxEntry]
  | cons x rest ih =>
    simp only [maxEntry]
    have := ih (if rankedAbove C x best then x else best)
    rcases List.mem_cons.1 this with h | h
    · rw [h]
      by_cases hr : rankedAbove C x best = true
      · simp [hr]
      · simp [hr]
    · simp [h]

/-- The entry found by the search is ranked at least as high as `best`. -/
theorem maxEntry_ge_best (best : Entry) (xs : List Entry) :
    rankedAbove Int64Compare best (maxEntry Int64Compare best xs) = false := by
  induction xs generalizing best with
  | nil =>
    have : ¬ rankedAbove Int64Compare best best = true := by
      rw [rankedAbove_iff]; omega
    simpa [maxEntry] using this
  | cons x rest ih =>
    simp only [maxEntry]
    by_cases hr : rankedAbove Int64Compare x best = true
    · simp only [hr, if_true]
      have h1 := ih x
      have h1b : ¬ rankedAbove Int64Compare x (maxEntry Int64Compare x rest) = true := by
        simp [h1]
      rw [rankedAbove_iff] at hr h1b
      have : ¬ rankedAbove Int64Compare best (maxEntry Int64Compare x rest) = true := by
        rw [rankedAbove_iff]; omega
      simpa using this
    · simp only [hr]
      exact ih best

/-- No entry of the list is ranked above the entry found by the search. -/
theorem maxEntry_max (best : Entry) (xs : List Entry) (y : Entry) (hy : y ∈ best :: xs) :
    rankedAbove Int64Compare y (maxEntry Int64Compare best xs) = false := by
  induction xs generalizing best with
  | nil =>
    simp at hy
    subst hy
    exact maxEntry_ge_best y []
  | cons x rest ih =>
    rcases List.mem_cons.1 hy with h | h
    · subst h
      exact maxEntry_ge_best y (x :: rest)
    · simp only [maxEntry]
      rcases List.mem_cons.1 h with h2 | h2
      · subst h2
        by_cases hr : rankedAbove Int64Compare y best = true
        · simp only [hr, if_true]
          exact maxEntry_ge_best y rest
        · simp only [hr]
          have h1 := maxEntry_ge_best best rest
          have h1b : ¬ rankedAbove Int64Compare best (maxEntry Int64Compare best rest) = true := by
            simp [h1]
          rw [rankedAbove_iff] at hr h1b
          have : ¬ rankedAbove Int64Compare y (maxEntry Int64Compare best rest) = true := by
            rw [rankedAbove_iff]; omega
          simpa using this
      · exact ih _ (List.mem_cons_of_mem _ h2)

/-- The entry `popMax` returns is in the index, the rest is the index without it,
and no entry of the index is ranked above it. -/
theorem popMax_spec (index rest : List Entry) (e : Entry)
    (h : popMax Int64Compare index = some (e, rest)) :
    e ∈ index ∧ rest = index.erase e ∧
      ∀ y ∈ index, rankedAbove Int64Compare y e = false := by
  cases index with
  | nil => simp [popMax] at h
  | cons x xs =>
    simp only [popMax, Option.some.injEq, Prod.mk.injEq] at h
    obtain ⟨h1, h2⟩ := h
    subst h1
    exact ⟨maxEntry_mem _ x xs, h2.symm, fun y hy => maxEntry_max x xs y hy⟩

/-- Every item of the run of `Select` is a `popMax` of the index of that moment. -/
theorem selectLoop_item (m : Mempool) (fuel : Nat) (index : List Entry)
    (I : List Entry) (a : Entry) (h : (I, a) ∈ selectLoop Int64Compare m fuel index) :
    popMax Int64Compare I = some (a, I.erase a) := by
  induction fuel generalizing index with
  | zero => simp [selectLoop] at h
  | succ n ih =>
    unfold selectLoop at h
    cases hp : popMax Int64Compare index with
    | none => simp [hp] at h
    | some pr =>
      obtain ⟨e, rest⟩ := pr
      simp only [hp] at h
      rcases List.mem_cons.1 h with h1 | h1
      · injection h1 with hI ha
        subst hI; subst ha
        rw [hp, (popMax_spec I rest a hp).2.1]
      · exact ih _ h1

/-- C10 (priority ordering of `Select`): for every mempool state, at every yield
of `Select` the yielded entry `a` is one of the entries executable at that
moment (the index `I`), and no entry `b` executable at that moment has a
strictly greater priority under the configured `Compare`; among equal
priorities the yielded one has the least tie-break. Hence of two entries
executable at the moment one of them is yielded, the one with the strictly
greater priority is the one yielded first. -/
theorem Select_priority_order (codec : AddressCodec) (w : World) (m : Mempool)
    (I : List Entry) (a b : Entry)
    (hI : (I, a) ∈ selectTrace (NewUnionApp codec w) m) (hb : b ∈ I) :
    a ∈ I ∧
    ¬ ((NewUnionApp codec w).Compare b.priority a.priority > 0) ∧
    ((NewUnionApp codec w).Compare b.priority a.priority = 0 → a.tieBreak ≤ b.tieBreak) := by
  have hC : (NewUnionApp codec w).Compare = Int64Compare := rfl
  rw [hC]
  unfold selectTrace at hI
  rw [hC] at hI
  have hp := selectLoop_item m _ _ I a hI
  obtain ⟨ha, _, hmax⟩ := popMax_spec I _ a hp
  have hr := hmax b hb
  have hr2 : ¬ rankedAbove Int64Compare b a = true := by simp [hr]
  rw [rankedAbove_iff] at hr2
  rw [Int64Compare_pos_iff, Int64Compare_zero_iff]
  refine ⟨ha, by omega, fun h => by omega⟩

/-- Witness of C10: in `sampleMempool` the first yield is the entry of `[1]`
with priority 5, while the entry of `[0]` with priority 1 is executable. -/
theorem Select_priority_order_witness :
    (⟨[1], 0, 5, 0, [20]⟩ : Entry) ∈ [(⟨[0], 0, 1, 0, [10]⟩ : Entry), ⟨[1], 0, 5, 0, [20]⟩] ∧
    ¬ ((NewUnionApp sampleCodec ⟨fun _ => "a"⟩).Compare
        (⟨[0], 0, 1, 0, [10]⟩ : Entry).priority (⟨[1], 0, 5, 0, [20]⟩ : Entry).priority > 0) ∧
    ((NewUnionApp sampleCodec ⟨fun _ => "a"⟩).Compare
        (⟨[0], 0, 1, 0, [10]⟩ : Entry).priority (⟨[1], 0, 5, 0, [20]⟩ : Entry).priority = 0 →
      (⟨[1], 0, 5, 0, [20]⟩ : Entry).tieBreak ≤ (⟨[0], 0, 1, 0, [10]⟩ : Entry).tieBreak) :=
  Select_priority_order sampleCodec ⟨fun _ => "a"⟩ sampleMempool
    [⟨[0], 0, 1, 0, [10]⟩, ⟨[1], 0, 5, 0, [20]⟩] ⟨[1], 0, 5, 0, [20]⟩ ⟨[0], 0, 1, 0, [10]⟩
    (by decide) (by decide)

end UnionApp

namespace UnionApp

/-! ## `Select` runs until the index is exhausted -/

theorem popMax_mem (C : Int → Int → Int) (index rest : List Entry) (e : Entry)
    (h : popMax C index = some (e, rest)) : e ∈ index ∧ rest = index.erase e := by
  cases index with
  | nil => simp [popMax] at h
  | cons x xs =>
    simp only [popMax, Option.some.injEq, Prod.mk.injEq] at h
    obtain ⟨h1, h2⟩ := h
    subst h1
    exact ⟨maxEntry_mem _ x xs, h2.symm⟩

theorem filter_length_lt (p q : Entry → Bool) (n : Entry) (l : List Entry)
    (hpq : ∀ x, p x = true → q x = true) (hn : n ∈ l) (hq : q n = true) (hp : p n = false) :
    (l.filter p).length < (l.filter q).length := by
  have hle : ∀ l2 : List Entry, (l2.filter p).length ≤ (l2.filter q).length := by
    intro l2
    induction l2 with
    | nil => simp
    | cons x r ih =>
      by_cases h1 : p x = true
      · simp [List.filter_cons, h1, hpq x h1, ih]
      · by_cases h2 : q x = true
        · simp [List.filter_cons, h1, h2]; omega
        · simp [List.filter_cons, h1, h2, ih]
  induction l with
  | nil => simp at hn
  | cons x r ih =>
    rcases List.mem_cons.1 hn with h | h
    · subst h
      have := hle r
      simp [List.filter_cons, hq, hp]
      omega
    · have := ih h
      by_cases h1 : p x = true
      · simp [List.filter_cons, h1, hpq x h1, this]
      · by_cases h2 : q x = true
        · simp [List.filter_cons, h1, h2]; omega
        · simp [List.filter_cons, h1, h2, this]

theorem pending_nextHead (m : Mempool) (hm : m.Keyed) (e n : Entry)
    (h : nextHead m e = some n) : pending m n + 1 ≤ pending m e := by
  unfold nextHead SenderQueue.entryAt at h
  have hmem : n ∈ (m.queues e.sender).entries := List.mem_of_find?_eq_some h
  have hnonce : n.nonce = e.nonce + 1 := by
    have := List.find?_some h
    simpa using this
  have hs : n.sender = e.sender := hm e.sender n hmem
  unfold pending
  rw [hs]
  have := filter_length_lt (fun x => decide (n.nonce < x.nonce)) (fun x => decide (e.nonce < x.nonce))
    n (m.queues e.sender).entries
    (by intro x hx; simp at hx ⊢; omega) hmem (by simp; omega) (by simp)
  omega

theorem selectFuel_erase (m : Mempool) (e : Entry) (index : List Entry) (h : e ∈ index) :
    selectFuel m index = 1 + pending m e + selectFuel m (index.erase e) := by
  induction index with
  | nil => simp at h
  | cons x r ih =>
    by_cases hx : x = e
    · subst hx
      simp [selectFuel]
    · have hr : e ∈ r := by
        rcases List.mem_cons.1 h with h1 | h1
        · exact absurd h1.symm hx
        · exact h1
      have hbeq : (x == e) = false := by simpa using hx
      have := ih hr
      simp only [selectFuel, List.erase_cons, hbeq, List.map_cons, List.sum_cons] at this ⊢
      simp only [Bool.false_eq_true, if_false, List.map_cons, List.sum_cons]
      omega

theorem selectFuel_filter_le (m : Mempool) (p : Entry → Bool) (index : List Entry) :
    selectFuel m (index.filter p) ≤ selectFuel m index := by
  induction index with
  | nil => simp
  | cons x r ih =>
    by_cases hx : p x = true
    · simp only [selectFuel, List.filter_cons, hx, if_true, List.map_cons, List.sum_cons] at ih ⊢
      omega
    · simp only [selectFuel, List.filter_cons, hx, List.map_cons, List.sum_cons] at ih ⊢
      simp only [Bool.false_eq_true, if_false]
      omega

/-- A yield strictly decreases the bound. -/
theorem selectFuel_step (C : Int → Int → Int) (m : Mempool) (hm : m.Keyed)
    (index rest : List Entry) (e : Entry) (h : popMax C index = some (e, rest)) :
    selectFuel m (promote m rest e) < selectFuel m index := by
  obtain ⟨hmem, hrest⟩ := popMax_mem C index rest e h
  have h1 := selectFuel_erase m e index hmem
  rw [← hrest] at h1
  unfold promote
  cases hn : nextHead m e with
  | none => simp only; omega
  | some n =>
    simp only
    have h2 := pending_nextHead m hm e n hn
    have h3 := selectFuel_filter_le m (fun x => decide (x.sender ≠ n.sender)) rest
    have h4 : selectFuel m (upsert rest n)
        = 1 + pending m n + selectFuel m (rest.filter (fun x => decide (x.sender ≠ n.sender))) := by
      simp [selectFuel, upsert]
    omega

theorem selectFuel_zero (m : Mempool) (index : List Entry) (h : selectFuel m index = 0) :
    index = [] := by
  cases index with
  | nil => rfl
  | cons x r =>
    simp [selectFuel] at h

/-- In a state whose queues hold entries of their own sender, the run of `Select`
ends because the index is exhausted: more fuel than `selectFuel` yields nothing
more. -/
theorem selectLoop_fuel (C : Int → Int → Int) (m : Mempool) (hm : m.Keyed) (fuel : Nat) :
    ∀ index, selectFuel m index ≤ fuel → ∀ k,
      selectLoop C m (fuel + k) index = selectLoop C m fuel index := by
  induction fuel with
  | zero =>
    intro index h k
    have := selectFuel_zero m index (by omega)
    subst this
    cases k <;> simp [selectLoop, popMax]
  | succ n ih =>
    intro index h k
    have hk : n + 1 + k = (n + k) + 1 := by omega
    rw [hk]
    unfold selectLoop
    cases hp : popMax C index with
    | none => rfl
    | some pr =>
      obtain ⟨e, rest⟩ := pr
      simp only
      have hlt := selectFuel_step C m hm index rest e hp
      rw [ih (promote m rest e) (by omega) k]

theorem queueInsert_mem (C : Int → Int → Int) (e : Entry) (l l2 : List Entry)
    (h : queueInsert C e l = some l2) : ∀ x ∈ l2, x = e ∨ x ∈ l := by
  induction l generalizing l2 with
  | nil =>
    simp [queueInsert] at h
    subst h
    simp
  | cons y r ih =>
    unfold queueInsert at h
    by_cases h1 : e.nonce < y.nonce
    · simp [h1] at h
      subst h
      intro x hx
      simpa using hx
    · by_cases h2 : e.nonce = y.nonce
      · by_cases h3 : C e.priority y.priority > 0
        · simp [h1, h2, h3] at h
          subst h
          intro x hx
          rcases List.mem_cons.1 hx with hx | hx
          · exact Or.inl hx
          · exact Or.inr (List.mem_cons_of_mem _ hx)
        · simp [h1, h2, h3] at h
      · simp only [h1, h2, if_false] at h
        cases hq : queueInsert C e r with
        | none => simp [hq] at h
        | some l3 =>
          simp [hq] at h
          subst h
          intro x hx
          rcases List.mem_cons.1 hx with hx | hx
          · exact Or.inr (by simp [hx])
          · rcases ih l3 hq x hx with h5 | h5
            · exact Or.inl h5
            · exact Or.inr (List.mem_cons_of_mem _ h5)

/-- The empty mempool is keyed, and `Insert` keeps a mempool keyed. -/
theorem Insert_keyed (cfg : UnionTxPriority) (m m2 : Mempool) (goCtx : Context) (p : PoolTx)
    (hm : m.Keyed) (h : Insert cfg m goCtx p = .ok m2) : Mempool.empty.Keyed ∧ m2.Keyed := by
  refine ⟨fun s x hx => by simp [Mempool.empty] at hx, ?_⟩
  unfold Insert at h
  cases hs : p.signer with
  | none => simp [hs] at h
  | some sn =>
    obtain ⟨sender, nonce⟩ := sn
    simp only [hs] at h
    cases hg : cfg.GetTxPriority goCtx p.tx with
    | error msg => simp [hg] at h
    | ok priority =>
      simp only [hg] at h
      cases hq : queueInsert cfg.Compare ⟨sender, nonce, priority, p.tieBreak, p.payload⟩
          (m.queues sender).entries with
      | none => simp [hq] at h
      | some entries =>
        simp only [hq] at h
        injection h with h
        subst h
        intro s x hx
        by_cases hss : s = sender
        · subst hss
          simp at hx
          rcases queueInsert_mem _ _ _ _ hq x hx with h5 | h5
          · rw [h5]
          · exact hm s x h5
        · simp [hss] at hx
          exact hm s x hx

end UnionApp

namespace UnionApp

/-! ## Nonce ordering of `Select` -/

theorem nextHead_spec (m : Mempool) (hm : m.Keyed) (e n : Entry) (h : nextHead m e = some n) :
    n.sender = e.sender ∧ n.nonce = e.nonce + 1 := by
  unfold nextHead SenderQueue.entryAt at h
  have hmem : n ∈ (m.queues e.sender).entries := List.mem_of_find?_eq_some h
  have hnonce : n.nonce = e.nonce + 1 := by
    have := List.find?_some h
    simpa using this
  exact ⟨hm e.sender n hmem, hnonce⟩

theorem mem_promote (m : Mempool) (rest : List Entry) (e x : Entry)
    (h : x ∈ promote m rest e) : x ∈ rest ∨ nextHead m e = some x := by
  unfold promote at h
  cases hn : nextHead m e with
  | none =>
    simp only [hn] at h
    exact Or.inl h
  | some n =>
    simp only [hn, upsert] at h
    rcases List.mem_cons.1 h with h1 | h1
    · right; rw [h1]
    · left; exact (List.mem_filter.1 h1).1

/-- Every yield of the loop has an ancestor in the starting index: an entry of
the same sender with a nonce that is not greater. -/
theorem selectLoop_origin (C : Int → Int → Int) (m : Mempool) (hm : m.Keyed) (fuel : Nat) :
    ∀ index, ∀ item ∈ selectLoop C m fuel index,
      ∃ x ∈ index, x.sender = item.2.sender ∧ x.nonce ≤ item.2.nonce := by
  induction fuel with
  | zero =>
    intro index item h
    simp [selectLoop] at h
  | succ k ih =>
    intro index item h
    unfold selectLoop at h
    cases hp : popMax C index with
    | none => simp [hp] at h
    | some pr =>
      obtain ⟨e, rest⟩ := pr
      simp only [hp] at h
      obtain ⟨hmem, hrest⟩ := popMax_mem C index rest e hp
      rcases List.mem_cons.1 h with h1 | h1
      · subst h1
        exact ⟨e, hmem, rfl, Nat.le_refl _⟩
      · obtain ⟨x, hx, hs, hn⟩ := ih _ item h1
        rcases mem_promote m rest e x hx with h2 | h2
        · rw [hrest] at h2
          exact ⟨x, List.mem_of_mem_erase h2, hs, hn⟩
        · obtain ⟨h3, h4⟩ := nextHead_spec m hm e x h2
          exact ⟨e, hmem, by rw [← h3, hs], by omega⟩

theorem SenderUnique_erase (index : List Entry) (e x : Entry) (hu : SenderUnique index)
    (he : e ∈ index) (hx : x ∈ index.erase e) : x.sender ≠ e.sender := by
  have hnd : index.Nodup := by
    unfold SenderUnique at hu
    exact hu.imp (fun {a b} h hab => h (by rw [hab]))
  have hx2 := (List.Nodup.mem_erase_iff hnd).1 hx
  have hsym : Symmetric (fun a b : Entry => a.sender ≠ b.sender) := fun a b h => fun h2 => h h2.symm
  exact List.Pairwise.forall hsym hu hx2.2 he hx2.1

theorem SenderUnique_promote (m : Mempool) (index : List Entry) (e : Entry)
    (hu : SenderUnique index) : SenderUnique (promote m (index.erase e) e) := by
  have h1 : SenderUnique (index.erase e) := List.Pairwise.erase e hu
  unfold promote
  cases hn : nextHead m e with
  | none => exact h1
  | some n =>
    simp only [upsert]
    unfold SenderUnique
    rw [List.pairwise_cons]
    refine ⟨?_, List.Pairwise.filter _ h1⟩
    intro a ha
    have := (List.mem_filter.1 ha).2
    simp at this
    exact fun h => this h.symm

/-- In a keyed state with at most one index entry per sender, the yields of one
sender come in strictly increasing nonce order. -/
theorem selectLoop_nonce_sorted (C : Int → Int → Int) (m : Mempool) (hm : m.Keyed)
    (fuel : Nat) : ∀ index, SenderUnique index →
      ((selectLoop C m fuel index).map (fun item => item.2)).Pairwise
        (fun x y => x.sender = y.sender → x.nonce < y.nonce) := by
  induction fuel with
  | zero =>
    intro index _
    simp [selectLoop]
  | succ k ih =>
    intro index hu
    unfold selectLoop
    cases hp : popMax C index with
    | none => simp
    | some pr =>
      obtain ⟨e, rest⟩ := pr
      obtain ⟨hmem, hrest⟩ := popMax_mem C index rest e hp
      subst hrest
      simp only [List.map_cons, List.pairwise_cons]
      refine ⟨?_, ih _ (SenderUnique_promote m index e hu)⟩
      intro y hy hs
      obtain ⟨item, hitem, hy2⟩ := List.mem_map.1 hy
      obtain ⟨x, hx, hxs, hxn⟩ := selectLoop_origin C m hm k _ item hitem
      rw [hy2] at hxs hxn
      rcases mem_promote m _ e x hx with h2 | h2
      · exact absurd (hxs.trans hs.symm) (SenderUnique_erase index e x hu hmem h2)
      · have := (nextHead_spec m hm e x h2).2
        omega

theorem popMax_cons (C : Int → Int → Int) (index : List Entry) (x : Entry) (hx : x ∈ index) :
    ∃ e, popMax C index = some (e, index.erase e) ∧ e ∈ index := by
  cases index with
  | nil => simp at hx
  | cons y ys => exact ⟨maxEntry C y ys, rfl, maxEntry_mem C y ys⟩

/-- An index entry that is not the one popped stays in the index. -/
theorem mem_promote_of_mem (m : Mempool) (hm : m.Keyed) (index : List Entry) (e x : Entry)
    (hu : SenderUnique index) (he : e ∈ index) (hx : x ∈ index.erase e) :
    x ∈ promote m (index.erase e) e := by
  unfold promote
  cases hn : nextHead m e with
  | none => exact hx
  | some n =>
    simp only [upsert]
    refine List.mem_cons_of_mem _ (List.mem_filter.2 ⟨hx, ?_⟩)
    have h1 := SenderUnique_erase index e x hu he hx
    have h2 := (nextHead_spec m hm e n hn).1
    simp only [ne_eq, decide_eq_true_eq]
    rw [h2]
    exact h1

/-- With the fuel of `Select`, every entry of the index is yielded. -/
theorem selectLoop_yields_index (C : Int → Int → Int) (m : Mempool) (hm : m.Keyed)
    (fuel : Nat) : ∀ index, SenderUnique index → selectFuel m index ≤ fuel →
      ∀ x ∈ index, x ∈ (selectLoop C m fuel index).map (fun item => item.2) := by
  induction fuel with
  | zero =>
    intro index _ hf x hx
    have := selectFuel_zero m index (by omega)
    subst this
    simp at hx
  | succ k ih =>
    intro index hu hf x hx
    obtain ⟨e, hp, he⟩ := popMax_cons C index x hx
    unfold selectLoop
    simp only [hp, List.map_cons, List.mem_cons]
    by_cases hxe : x = e
    · exact Or.inl hxe
    · right
      have hx2 : x ∈ index.erase e := (List.mem_erase_of_ne hxe).2 hx
      have hlt := selectFuel_step C m hm index _ e hp
      exact ih _ (SenderUnique_promote m index e hu) (by omega) x
        (mem_promote_of_mem m hm index e x hu he hx2)

/-- With the fuel of `Select`, the next head of every yielded entry is yielded. -/
theorem selectLoop_yields_next (C : Int → Int → Int) (m : Mempool) (hm : m.Keyed)
    (fuel : Nat) : ∀ index, SenderUnique index → selectFuel m index ≤ fuel →
      ∀ e ∈ (selectLoop C m fuel index).map (fun item => item.2), ∀ y,
        nextHead m e = some y → y ∈ (selectLoop C m fuel index).map (fun item => item.2) := by
  induction fuel with
  | zero =>
    intro index _ _ e he
    simp [selectLoop] at he
  | succ k ih =>
    intro index hu hf e he y hy
    unfold selectLoop at he ⊢
    cases hp : popMax C index with
    | none => simp [hp] at he
    | some pr =>
      obtain ⟨e0, rest⟩ := pr
      obtain ⟨hmem, hrest⟩ := popMax_mem C index rest e0 hp
      subst hrest
      simp only [hp, List.map_cons, List.mem_cons] at he ⊢
      have hlt := selectFuel_step C m hm index _ e0 hp
      have hu2 := SenderUnique_promote m index e0 hu
      right
      rcases he with h1 | h1
      · subst h1
        apply selectLoop_yields_index C m hm k _ hu2 (by omega)
        simp [promote, hy, upsert]
      · exact ih _ hu2 (by omega) e h1 y hy

theorem entryAt_some (q : SenderQueue) (k : Nat) (x : Entry) (h : q.entryAt k = some x) :
    x ∈ q.entries ∧ x.nonce = k := by
  unfold SenderQueue.entryAt at h
  refine ⟨List.mem_of_find?_eq_some h, ?_⟩
  have := List.find?_some h
  simpa using this

/-- When the queue of a sender holds every nonce from its index entry `h` up to
`top`, `Select` yields the entry at each of these nonces. -/
theorem Select_yields_run (cfg : UnionTxPriority) (m : Mempool) (hk : m.Keyed)
    (hu : SenderUnique m.index) (h : Entry) (top : Nat) (hmem : h ∈ m.index)
    (hh : (m.queues h.sender).entryAt h.nonce = some h)
    (hrun : ∀ k, h.nonce ≤ k → k ≤ top → ∃ x, (m.queues h.sender).entryAt k = some x) :
    ∀ d, h.nonce + d ≤ top →
      ∃ x, (m.queues h.sender).entryAt (h.nonce + d) = some x ∧ x ∈ SelectEntries cfg m := by
  intro d
  induction d with
  | zero =>
    intro _
    exact ⟨h, hh, selectLoop_yields_index cfg.Compare m hk _ m.index hu (Nat.le_refl _) h hmem⟩
  | succ d ih =>
    intro hd
    obtain ⟨x, hx, hxy⟩ := ih (by omega)
    obtain ⟨y, hy⟩ := hrun (h.nonce + (d + 1)) (by omega) hd
    refine ⟨y, hy, ?_⟩
    obtain ⟨hxq, hxn⟩ := entryAt_some _ _ x hx
    have hxs : x.sender = h.sender := hk h.sender x hxq
    have hnext : nextHead m x = some y := by
      unfold nextHead
      rw [hxs, hxn]
      exact hy
    exact selectLoop_yields_next cfg.Compare m hk _ m.index hu (Nat.le_refl _) x hxy y hnext

/-- C11 (nonce ordering of `Select`): in every mempool state of the data model
(each queue holds entries of its own sender, the index holds at most one entry
per sender), of two entries of one sender that `Select` yields, the one with
the lower nonce is yielded first, whatever the priorities are; and when the
queue of the sender holds every nonce from its executable entry `h` up to
`top`, the entries at any two nonces `n < k` of that range are both yielded,
the one at `n` before the one at `k`. -/
theorem Select_nonce_order (cfg : UnionTxPriority) (m : Mempool)
    (hk : m.Keyed) (hu : SenderUnique m.index) :
    (∀ (i j : Nat) (hi : i < (SelectEntries cfg m).length)
        (hj : j < (SelectEntries cfg m).length),
      ((SelectEntries cfg m)[i]).sender = ((SelectEntries cfg m)[j]).sender →
      ((SelectEntries cfg m)[i]).nonce < ((SelectEntries cfg m)[j]).nonce → i < j) ∧
    (∀ (h : Entry) (top n k : Nat) (xn xk : Entry), h ∈ m.index →
      (m.queues h.sender).entryAt h.nonce = some h →
      (∀ c, h.nonce ≤ c → c ≤ top → ∃ x, (m.queues h.sender).entryAt c = some x) →
      h.nonce ≤ n → n < k → k ≤ top →
      (m.queues h.sender).entryAt n = some xn →
      (m.queues h.sender).entryAt k = some xk →
      ∃ (i j : Nat) (hi : i < (SelectEntries cfg m).length)
          (hj : j < (SelectEntries cfg m).length),
        i < j ∧ (SelectEntries cfg m)[i] = xn ∧ (SelectEntries cfg m)[j] = xk) := by
  have hp := selectLoop_nonce_sorted cfg.Compare m hk (selectFuel m m.index) m.index hu
  have hp2 : (SelectEntries cfg m).Pairwise
      (fun x y => x.sender = y.sender → x.nonce < y.nonce) := hp
  rw [List.pairwise_iff_getElem] at hp2
  have part1 : ∀ (i j : Nat) (hi : i < (SelectEntries cfg m).length)
      (hj : j < (SelectEntries cfg m).length),
      ((SelectEntries cfg m)[i]).sender = ((SelectEntries cfg m)[j]).sender →
      ((SelectEntries cfg m)[i]).nonce < ((SelectEntries cfg m)[j]).nonce → i < j := by
    intro i j hi hj hs hn
    rcases Nat.lt_trichotomy i j with h | h | h
    · exact h
    · subst h
      omega
    · have := hp2 j i hj hi h hs.symm
      omega
  refine ⟨part1, ?_⟩
  intro h top n k xn xk hmem hh hrun hn hnk hktop hxn hxk
  have hrunAll := Select_yields_run cfg m hk hu h top hmem hh hrun
  obtain ⟨xn2, hxn2, hyn⟩ := hrunAll (n - h.nonce) (by omega)
  obtain ⟨xk2, hxk2, hyk⟩ := hrunAll (k - h.nonce) (by omega)
  have e1 : h.nonce + (n - h.nonce) = n := by omega
  have e2 : h.nonce + (k - h.nonce) = k := by omega
  rw [e1, hxn] at hxn2
  rw [e2, hxk] at hxk2
  injection hxn2 with hxn2
  injection hxk2 with hxk2
  subst hxn2
  subst hxk2
  obtain ⟨i, hi, hgi⟩ := List.getElem_of_mem hyn
  obtain ⟨j, hj, hgj⟩ := List.getElem_of_mem hyk
  obtain ⟨hq1, hn1⟩ := entryAt_some _ _ xn hxn
  obtain ⟨hq2, hn2⟩ := entryAt_some _ _ xk hxk
  refine ⟨i, j, hi, hj, part1 i j hi hj ?_ ?_, hgi, hgj⟩
  · rw [hgi, hgj, hk h.sender xn hq1, hk h.sender xk hq2]
  · rw [hgi, hgj, hn1, hn2]
    exact hnk

theorem sampleMempool_keyed : sampleMempool.Keyed := by
  intro s x hx
  by_cases h0 : s = [0]
  · subst h0
    simp [sampleMempool] at hx
    rcases hx with hx | hx <;> rw [hx]
  · by_cases h1 : s = [1]
    · subst h1
      simp [sampleMempool] at hx
      rw [hx]
    · simp [sampleMempool, h0, h1] at hx

/-- Witness of C11: in `sampleMempool` the sender `[0]` holds nonce 0 with
priority 1 and nonce 1 with priority 100; both are yielded, nonce 0 first. -/
theorem Select_nonce_order_witness :
    SelectEntries (mempoolTxPriority sampleCodec ["a"]) sampleMempool
      = [⟨[1], 0, 5, 0, [20]⟩, ⟨[0], 0, 1, 0, [10]⟩, ⟨[0], 1, 100, 0, [11]⟩] ∧
    1 < 2 ∧
    ∃ (i j : Nat)
        (hi : i < (SelectEntries (mempoolTxPriority sampleCodec ["a"]) sampleMempool).length)
        (hj : j < (SelectEntries (mempoolTxPriority sampleCodec ["a"]) sampleMempool).length),
      i < j ∧
      (SelectEntries (mempoolTxPriority sampleCodec ["a"]) sampleMempool)[i]
        = ⟨[0], 0, 1, 0, [10]⟩ ∧
      (SelectEntries (mempoolTxPriority sampleCodec ["a"]) sampleMempool)[j]
        = ⟨[0], 1, 100, 0, [11]⟩ :=
  ⟨rfl,
   (Select_nonce_order (mempoolTxPriority sampleCodec ["a"]) sampleMempool
      sampleMempool_keyed (by simp [SenderUnique, sampleMempool])).1
      1 2 (by decide) (by decide) (by decide) (by decide),
   (Select_nonce_order (mempoolTxPriority sampleCodec ["a"]) sampleMempool
      sampleMempool_keyed (by simp [SenderUnique, sampleMempool])).2
      ⟨[0], 0, 1, 0, [10]⟩ 1 0 1 ⟨[0], 0, 1, 0, [10]⟩ ⟨[0], 1, 100, 0, [11]⟩
      (by simp [sampleMempool]) rfl
      (by
        intro c h0 h1
        have hc : c = 0 ∨ c = 1 := by
          have h0b : (0 : Nat) ≤ c := h0
          omega
        rcases hc with hc | hc
        · subst hc; exact ⟨_, rfl⟩
        · subst hc; exact ⟨_, rfl⟩)
      (Nat.le_refl _) (by decide) (Nat.le_refl _) rfl rfl⟩

end UnionApp

namespace UnionApp

/-! ## Removal -/

theorem entryAt_remove (q : SenderQueue) (nonce : Nat) : (q.remove nonce).entryAt nonce = none := by
  unfold SenderQueue.entryAt SenderQueue.remove
  simp only [List.find?_eq_none]
  intro x hx
  have := (List.mem_filter.1 hx).2
  simpa using this

theorem Remove_absent (m : Mempool) (p : PoolTx) (sender : Address) (nonce : Nat)
    (hs : p.signer = some (sender, nonce)) (he : (m.queues sender).entryAt nonce = none) :
    Remove m p = .ok m := by
  simp [Remove, hs, he]

theorem Remove_present (m : Mempool) (p : PoolTx) (sender : Address) (nonce : Nat) (x : Entry)
    (hs : p.signer = some (sender, nonce)) (he : (m.queues sender).entryAt nonce = some x) :
    Remove m p = .ok (removeAt m sender nonce) := by
  simp [Remove, hs, he]

/-- A second `Remove` of the same transaction is a no-op, and `Remove` never
returns an error. -/
theorem Remove_twice (m : Mempool) (p : PoolTx) :
    ∃ m1, Remove m p = .ok m1 ∧ Remove m1 p = .ok m1 := by
  cases hs : p.signer with
  | none => exact ⟨m, by simp [Remove, hs], by simp [Remove, hs]⟩
  | some sn =>
    obtain ⟨sender, nonce⟩ := sn
    cases he : (m.queues sender).entryAt nonce with
    | none =>
      exact ⟨m, Remove_absent m p sender nonce hs he, Remove_absent m p sender nonce hs he⟩
    | some x =>
      refine ⟨removeAt m sender nonce, Remove_present m p sender nonce x hs he, ?_⟩
      apply Remove_absent _ p sender nonce hs
      simp [removeAt, entryAt_remove]

/-- C12 (idempotent removal): for every mempool state and every transaction,
`Remove` followed by `Remove` returns no error both times and `CountTx` after
the second call equals `CountTx` after the first (the second call changes
nothing); and `Remove` of a transaction that is not in the mempool, or whose
sender and nonce do not parse, succeeds and leaves the state as it is. -/
theorem Remove_idempotent (m : Mempool) (p : PoolTx) :
    (∃ m1 m2, Remove m p = .ok m1 ∧ Remove m1 p = .ok m2 ∧ m2 = m1 ∧
      CountTx m2 = CountTx m1) ∧
    ((∀ sender nonce, p.signer = some (sender, nonce) →
        (m.queues sender).entryAt nonce = none) → Remove m p = .ok m) := by
  constructor
  · obtain ⟨m1, h1, h2⟩ := Remove_twice m p
    exact ⟨m1, m1, h1, h2, rfl, rfl⟩
  · intro h
    cases hs : p.signer with
    | none => simp [Remove, hs]
    | some sn =>
      obtain ⟨sender, nonce⟩ := sn
      exact Remove_absent m p sender nonce hs (h sender nonce hs)

end UnionApp

namespace UnionApp

/-! ## Duplicate nonces -/

/-- At an occupied nonce of a sorted queue, an entry whose priority is not
strictly greater is refused. -/
theorem queueInsert_occupied (C : Int → Int → Int) (e old : Entry) (l : List Entry)
    (hl : NonceSorted l) (hold : old ∈ l) (hn : old.nonce = e.nonce)
    (hc : ¬ C e.priority old.priority > 0) : queueInsert C e l = none := by
  induction l with
  | nil => simp at hold
  | cons x xs ih =>
    unfold NonceSorted at hl
    rw [List.pairwise_cons] at hl
    unfold queueInsert
    rcases List.mem_cons.1 hold with h | h
    · subst h
      have h1 : ¬ e.nonce < old.nonce := by omega
      simp [h1, hn, hc]
    · have h0 := hl.1 old h
      have h1 : ¬ e.nonce < x.nonce := by omega
      have h2 : ¬ e.nonce = x.nonce := by omega
      simp [h1, h2, ih hl.2 h]

/-- A successful insertion into a sorted queue keeps it sorted, and the new entry
is the one found at its nonce. -/
theorem queueInsert_sorted (C : Int → Int → Int) (e : Entry) (l l2 : List Entry)
    (hl : NonceSorted l) (h : queueInsert C e l = some l2) :
    NonceSorted l2 ∧ l2.find? (fun x => decide (x.nonce = e.nonce)) = some e := by
  induction l generalizing l2 with
  | nil =>
    simp [queueInsert] at h
    subst h
    simp [NonceSorted]
  | cons x xs ih =>
    have hl0 := hl
    unfold NonceSorted at hl
    rw [List.pairwise_cons] at hl
    unfold queueInsert at h
    by_cases h1 : e.nonce < x.nonce
    · simp [h1] at h
      subst h
      refine ⟨?_, by simp⟩
      unfold NonceSorted
      rw [List.pairwise_cons]
      refine ⟨?_, hl0⟩
      intro a ha
      rcases List.mem_cons.1 ha with ha | ha
      · rw [ha]; exact h1
      · have := hl.1 a ha
        omega
    · by_cases h2 : e.nonce = x.nonce
      · by_cases h3 : C e.priority x.priority > 0
        · simp [h1, h2, h3] at h
          subst h
          refine ⟨?_, by simp⟩
          unfold NonceSorted
          rw [List.pairwise_cons]
          refine ⟨?_, hl.2⟩
          intro a ha
          have := hl.1 a ha
          omega
        · simp [h1, h2, h3] at h
      · simp only [h1, h2, if_false] at h
        cases hq : queueInsert C e xs with
        | none => simp [hq] at h
        | some l3 =>
          simp [hq] at h
          subst h
          obtain ⟨ih1, ih2⟩ := ih l3 hl.2 hq
          constructor
          · unfold NonceSorted
            rw [List.pairwise_cons]
            refine ⟨?_, ih1⟩
            intro a ha
            rcases queueInsert_mem C e xs l3 hq a ha with h5 | h5
            · rw [h5]; omega
            · exact hl.1 a h5
          · have h4 : ¬ x.nonce = e.nonce := fun h => h2 h.symm
            simp [List.find?_cons, h4, ih2]

/-- C13 (duplicate nonce is rejected atomically): in every mempool state with a
sorted queue for the sender, an `Insert` at an occupied `(sender, nonce)` with
a priority that is not greater than the priority of the entry held there fails
with DuplicateNonce and leaves the state as it is; and after a successful
`Insert` of `(B, 0)` with priority 7, an `Insert` of `(B, 0)` with priority 3
fails with DuplicateNonce, the entry held at `(B, 0)` is still the one with
priority 7, and `CountTx` is unchanged. -/
theorem duplicate_nonce_rejected (codec : AddressCodec) (prio : List String) :
    (∀ (m : Mempool) (goCtx : Context) (p : PoolTx) (sender : Address) (nonce : Nat)
        (old : Entry) (pr : Int),
      p.signer = some (sender, nonce) →
      NonceSorted (m.queues sender).entries →
      old ∈ (m.queues sender).entries → old.nonce = nonce →
      (mempoolTxPriority codec prio).GetTxPriority goCtx p.tx = .ok pr →
      pr ≤ old.priority →
      Insert (mempoolTxPriority codec prio) m goCtx p = .error .DuplicateNonce ∧
      insertStep (mempoolTxPriority codec prio) m goCtx p = (m, some .DuplicateNonce)) ∧
    (∀ (m0 m1 : Mempool) (ctx1 ctx2 : Context) (p1 p2 : PoolTx) (B : Address),
      NonceSorted (m0.queues B).entries →
      p1.signer = some (B, 0) → p2.signer = some (B, 0) →
      (mempoolTxPriority codec prio).GetTxPriority ctx1 p1.tx = .ok 7 →
      (mempoolTxPriority codec prio).GetTxPriority ctx2 p2.tx = .ok 3 →
      Insert (mempoolTxPriority codec prio) m0 ctx1 p1 = .ok m1 →
      Insert (mempoolTxPriority codec prio) m1 ctx2 p2 = .error .DuplicateNonce ∧
      insertStep (mempoolTxPriority codec prio) m1 ctx2 p2 = (m1, some .DuplicateNonce) ∧
      (m1.queues B).entryAt 0 = some ⟨B, 0, 7, p1.tieBreak, p1.payload⟩ ∧
      CountTx (insertStep (mempoolTxPriority codec prio) m1 ctx2 p2).1 = CountTx m1) := by
  have hC : (mempoolTxPriority codec prio).Compare = Int64Compare := rfl
  have gen : ∀ (m : Mempool) (goCtx : Context) (p : PoolTx) (sender : Address) (nonce : Nat)
      (old : Entry) (pr : Int),
      p.signer = some (sender, nonce) →
      NonceSorted (m.queues sender).entries →
      old ∈ (m.queues sender).entries → old.nonce = nonce →
      (mempoolTxPriority codec prio).GetTxPriority goCtx p.tx = .ok pr →
      pr ≤ old.priority →
      Insert (mempoolTxPriority codec prio) m goCtx p = .error .DuplicateNonce := by
    intro m goCtx p sender nonce old pr hs hsort hold hn hp hle
    have hq := queueInsert_occupied Int64Compare ⟨sender, nonce, pr, p.tieBreak, p.payload⟩ old
      (m.queues sender).entries hsort hold hn
      (by rw [Int64Compare_pos_iff]; simp; exact hle)
    simp [Insert, hs, hp, hC, hq]
  constructor
  · intro m goCtx p sender nonce old pr hs hsort hold hn hp hle
    have h := gen m goCtx p sender nonce old pr hs hsort hold hn hp hle
    exact ⟨h, by simp [insertStep, h]⟩
  · intro m0 m1 ctx1 ctx2 p1 p2 B hsort h1 h2 g1 g2 hins
    have hm1 : ∃ entries, queueInsert Int64Compare ⟨B, 0, 7, p1.tieBreak, p1.payload⟩
        (m0.queues B).entries = some entries ∧ (m1.queues B).entries = entries := by
      unfold Insert at hins
      simp only [h1, g1, hC] at hins
      cases hq : queueInsert Int64Compare ⟨B, 0, 7, p1.tieBreak, p1.payload⟩
          (m0.queues B).entries with
      | none => simp [hq] at hins
      | some entries =>
        simp only [hq] at hins
        injection hins with hins
        subst hins
        exact ⟨entries, rfl, by simp⟩
    obtain ⟨entries, hq, hentries⟩ := hm1
    obtain ⟨hs2, hfind⟩ := queueInsert_sorted Int64Compare _ _ entries hsort hq
    have hat : (m1.queues B).entryAt 0 = some ⟨B, 0, 7, p1.tieBreak, p1.payload⟩ := by
      unfold SenderQueue.entryAt
      rw [hentries]
      exact hfind
    have hmem : (⟨B, 0, 7, p1.tieBreak, p1.payload⟩ : Entry) ∈ (m1.queues B).entries := by
      unfold SenderQueue.entryAt at hat
      exact List.mem_of_find?_eq_some hat
    have h := gen m1 ctx2 p2 B 0 ⟨B, 0, 7, p1.tieBreak, p1.payload⟩ 3 h2
      (by rw [hentries]; exact hs2) hmem rfl g2 (by show (3 : Int) ≤ 7; decide)
    exact ⟨h, by simp [insertStep, h], hat, by simp [insertStep, h]⟩

/-- Witness of C13: into the empty mempool, the sender `[1]` inserts nonce 0 with
priority 7, then nonce 0 again with priority 3. -/
theorem duplicate_nonce_rejected_witness :
    Insert (mempoolTxPriority sampleCodec ["a"])
        (insertStep (mempoolTxPriority sampleCodec ["a"]) Mempool.empty ⟨7⟩
          ⟨⟨.ok [[1]], 0⟩, some ([1], 0), 0, [20]⟩).1 ⟨3⟩
        ⟨⟨.ok [[1]], 1⟩, some ([1], 0), 0, [21]⟩ = .error .DuplicateNonce ∧
    insertStep (mempoolTxPriority sampleCodec ["a"])
        (insertStep (mempoolTxPriority sampleCodec ["a"]) Mempool.empty ⟨7⟩
          ⟨⟨.ok [[1]], 0⟩, some ([1], 0), 0, [20]⟩).1 ⟨3⟩
        ⟨⟨.ok [[1]], 1⟩, some ([1], 0), 0, [21]⟩
      = ((insertStep (mempoolTxPriority sampleCodec ["a"]) Mempool.empty ⟨7⟩
          ⟨⟨.ok [[1]], 0⟩, some ([1], 0), 0, [20]⟩).1, some .DuplicateNonce) ∧
    ((insertStep (mempoolTxPriority sampleCodec ["a"]) Mempool.empty ⟨7⟩
          ⟨⟨.ok [[1]], 0⟩, some ([1], 0), 0, [20]⟩).1.queues [1]).entryAt 0
      = some ⟨[1], 0, 7, 0, [20]⟩ ∧
    CountTx (insertStep (mempoolTxPriority sampleCodec ["a"])
        (insertStep (mempoolTxPriority sampleCodec ["a"]) Mempool.empty ⟨7⟩
          ⟨⟨.ok [[1]], 0⟩, some ([1], 0), 0, [20]⟩).1 ⟨3⟩
        ⟨⟨.ok [[1]], 1⟩, some ([1], 0), 0, [21]⟩).1
      = CountTx (insertStep (mempoolTxPriority sampleCodec ["a"]) Mempool.empty ⟨7⟩
          ⟨⟨.ok [[1]], 0⟩, some ([1], 0), 0, [20]⟩).1 :=
  (duplicate_nonce_rejected sampleCodec ["a"]).2 Mempool.empty
    (insertStep (mempoolTxPriority sampleCodec ["a"]) Mempool.empty ⟨7⟩
      ⟨⟨.ok [[1]], 0⟩, some ([1], 0), 0, [20]⟩).1 ⟨7⟩ ⟨3⟩
    ⟨⟨.ok [[1]], 0⟩, some ([1], 0), 0, [20]⟩ ⟨⟨.ok [[1]], 1⟩, some ([1], 0), 0, [21]⟩ [1]
    (by simp [NonceSorted, Mempool.empty]) rfl rfl rfl rfl rfl

end UnionApp

namespace UnionApp

/-! ## Count conservation -/

/-- At a free nonce the insertion succeeds and adds exactly the new entry. -/
theorem queueInsert_fresh (C : Int → Int → Int) (e : Entry) (l : List Entry)
    (h : ∀ x ∈ l, x.nonce ≠ e.nonce) :
    ∃ l2, queueInsert C e l = some l2 ∧ l2.length = l.length + 1 ∧
      ∀ x, x ∈ l2 ↔ x = e ∨ x ∈ l := by
  induction l with
  | nil => exact ⟨[e], rfl, rfl, by simp⟩
  | cons y r ih =>
    have hy : ¬ e.nonce = y.nonce := fun h2 => h y (List.mem_cons_self y r) h2.symm
    obtain ⟨l3, h3, hlen, hmem⟩ := ih (fun x hx => h x (List.mem_cons_of_mem y hx))
    by_cases h1 : e.nonce < y.nonce
    · exact ⟨e :: y :: r, by simp [queueInsert, h1], by simp, by simp⟩
    · refine ⟨y :: l3, by simp [queueInsert, h1, hy, h3], by simp [hlen], ?_⟩
      intro x
      simp only [List.mem_cons, hmem]
      tauto

theorem Mempool.empty_tracks : Mempool.empty.Tracks [] := by
  refine ⟨?_, List.nodup_nil, rfl⟩
  intro s n
  simp [Mempool.empty]

theorem Insert_tracks (cfg : UnionTxPriority) (m m2 : Mempool) (goCtx : Context) (p : PoolTx)
    (S : List (Address × Nat)) (s : Address) (n : Nat)
    (hm : m.Tracks S) (hs : p.signer = some (s, n)) (hk : (s, n) ∉ S)
    (h : Insert cfg m goCtx p = .ok m2) : m2.Tracks ((s, n) :: S) := by
  obtain ⟨hb, hc, hd⟩ := hm
  unfold Insert at h
  simp only [hs] at h
  cases hg : cfg.GetTxPriority goCtx p.tx with
  | error msg => simp [hg] at h
  | ok pr =>
    simp only [hg] at h
    have hfree : ∀ x ∈ (m.queues s).entries,
        x.nonce ≠ (⟨s, n, pr, p.tieBreak, p.payload⟩ : Entry).nonce := by
      intro x hx hn
      exact hk ((hb s n).1 ⟨x, hx, hn⟩)
    obtain ⟨l2, hq, hlen, hmem⟩ := queueInsert_fresh cfg.Compare _ _ hfree
    simp only [hq] at h
    injection h with h
    subst h
    refine ⟨?_, List.nodup_cons.2 ⟨hk, hc⟩, ?_⟩
    · intro s2 n2
      by_cases hss : s2 = s
      · subst hss
        simp only [if_true, List.mem_cons, Prod.mk.injEq, true_and]
        constructor
        · rintro ⟨x, hx, hn⟩
          rcases (hmem x).1 hx with h5 | h5
          · left
            rw [← hn, h5]
          · right
            exact (hb s2 n2).1 ⟨x, h5, hn⟩
        · rintro (h5 | h5)
          · exact ⟨_, (hmem _).2 (Or.inl rfl), h5.symm⟩
          · obtain ⟨x, hx, hn⟩ := (hb s2 n2).2 h5
            exact ⟨x, (hmem x).2 (Or.inr hx), hn⟩
      · simp only [hss, if_false, List.mem_cons, Prod.mk.injEq, false_and, false_or]
        exact hb s2 n2
    · simp only [List.length_cons, hlen]
      omega

theorem Remove_tracks (m : Mempool) (p : PoolTx) (S : List (Address × Nat))
    (s : Address) (n : Nat) (hm : m.Tracks S) (hs : p.signer = some (s, n))
    (hk : (s, n) ∈ S) : ∃ m2, Remove m p = .ok m2 ∧ m2.Tracks (S.erase (s, n)) := by
  obtain ⟨hb, hc, hd⟩ := hm
  obtain ⟨x, hx, hn⟩ := (hb s n).2 hk
  have hsome : ∃ y, (m.queues s).entryAt n = some y := by
    unfold SenderQueue.entryAt
    cases hf : (m.queues s).entries.find? (fun x => decide (x.nonce = n)) with
    | some y => exact ⟨y, rfl⟩
    | none =>
      rw [List.find?_eq_none] at hf
      have := hf x hx
      simp [hn] at this
  obtain ⟨y, hy⟩ := hsome
  refine ⟨removeAt m s n, Remove_present m p s n y hs hy, ?_, List.Nodup.erase _ hc, ?_⟩
  · intro s2 n2
    rw [List.Nodup.mem_erase_iff hc]
    by_cases hss : s2 = s
    · subst hss
      simp only [removeAt, if_true, SenderQueue.remove, List.mem_filter, ne_eq, Prod.mk.injEq,
        true_and, decide_eq_true_eq]
      constructor
      · rintro ⟨z, ⟨hz, hzn⟩, hn2⟩
        exact ⟨fun h => hzn (hn2.trans h), (hb s2 n2).1 ⟨z, hz, hn2⟩⟩
      · rintro ⟨hne, hmem⟩
        obtain ⟨z, hz, hzn⟩ := (hb s2 n2).2 hmem
        exact ⟨z, ⟨hz, fun h => hne (hzn.symm.trans h)⟩, hzn⟩
    · simp only [removeAt, hss, if_false, ne_eq, Prod.mk.injEq, false_and, not_false_eq_true,
        true_and]
      exact hb s2 n2
  · simp only [removeAt]
    rw [List.length_erase_of_mem hk, hd]

/-- A run of successful inserts with distinct keys, none of them held before,
adds exactly these keys. -/
theorem insertAll_tracks (cfg : UnionTxPriority) (ins : List (Context × PoolTx)) :
    ∀ (m mK : Mempool) (S : List (Address × Nat)), m.Tracks S →
      insertAll cfg m ins = .ok mK →
      (ins.map (fun ip => ip.2.signer)).Nodup →
      (∀ k ∈ S, some k ∉ ins.map (fun ip => ip.2.signer)) →
      ∃ S2, mK.Tracks S2 ∧ S2.length = S.length + ins.length ∧
        (∀ k, k ∈ S2 ↔ k ∈ S ∨ some k ∈ ins.map (fun ip => ip.2.signer)) ∧
        (∀ o ∈ ins.map (fun ip => ip.2.signer), ∃ k, o = some k) := by
  induction ins with
  | nil =>
    intro m mK S hm h _ _
    simp only [insertAll] at h
    injection h with h
    subst h
    exact ⟨S, hm, by simp, by simp, by simp⟩
  | cons ip rest ih =>
    intro m mK S hm h hnd hdis
    obtain ⟨goCtx, p⟩ := ip
    simp only [insertAll] at h
    cases hi : Insert cfg m goCtx p with
    | error e => simp [hi] at h
    | ok m2 =>
      simp only [hi] at h
      cases hs : p.signer with
      | none => simp [Insert, hs] at hi
      | some k =>
        obtain ⟨s, n⟩ := k
        simp only [List.map_cons, hs, List.nodup_cons] at hnd
        have hk : (s, n) ∉ S := fun hmem => hdis (s, n) hmem (by simp [hs])
        have hm2 := Insert_tracks cfg m m2 goCtx p S s n hm hs hk hi
        obtain ⟨S2, ht, hlen, hmem, hsome⟩ := ih m2 mK ((s, n) :: S) hm2 h hnd.2 (by
          intro k hk2 hin
          rcases List.mem_cons.1 hk2 with h5 | h5
          · rw [h5] at hin
            exact hnd.1 hin
          · exact hdis k h5 (by simp only [List.map_cons, List.mem_cons]; exact Or.inr hin))
        refine ⟨S2, ht, by simp only [List.length_cons] at hlen ⊢; omega, ?_, ?_⟩
        · intro k
          rw [hmem k]
          simp only [List.mem_cons, List.map_cons, hs, Option.some.injEq]
          tauto
        · intro o ho
          simp only [List.map_cons, List.mem_cons, hs] at ho
          rcases ho with h5 | h5
          · exact ⟨(s, n), h5⟩
          · exact hsome o h5

/-- A run of removals of distinct held keys succeeds and lowers the count by
its length. -/
theorem removeAll_tracks (rem : List PoolTx) :
    ∀ (m : Mempool) (S : List (Address × Nat)), m.Tracks S →
      (rem.map (fun p => p.signer)).Nodup →
      (∀ r ∈ rem, ∃ k, r.signer = some k ∧ k ∈ S) →
      ∃ m2, removeAll m rem = .ok m2 ∧ CountTx m2 = S.length - rem.length := by
  induction rem with
  | nil =>
    intro m S hm _ _
    exact ⟨m, rfl, by simp [CountTx, hm.2.2]⟩
  | cons r rest ih =>
    intro m S hm hnd hsub
    obtain ⟨k, hk, hkS⟩ := hsub r (List.mem_cons_self r rest)
    obtain ⟨s, n⟩ := k
    obtain ⟨m1, h1, ht⟩ := Remove_tracks m r S s n hm hk hkS
    simp only [List.map_cons, List.nodup_cons] at hnd
    obtain ⟨m2, h2, hc⟩ := ih m1 (S.erase (s, n)) ht hnd.2 (by
      intro r2 hr2
      obtain ⟨k2, hk2, hk2S⟩ := hsub r2 (List.mem_cons_of_mem r hr2)
      refine ⟨k2, hk2, ?_⟩
      rw [List.Nodup.mem_erase_iff hm.2.1]
      refine ⟨?_, hk2S⟩
      intro heq
      apply hnd.1
      rw [hk, ← heq, ← hk2]
      exact List.mem_map_of_mem _ hr2)
    refine ⟨m2, by simp [removeAll, h1, h2], ?_⟩
    rw [hc, List.length_erase_of_mem hkS]
    simp only [List.length_cons]
    omega

/-- C14 (count conservation): starting from the empty mempool, after `K`
successful inserts with pairwise distinct `(sender, nonce)`, `CountTx` is `K`,
and `J` removals of distinct inserted transactions all succeed, with `J ≤ K`,
and leave `CountTx` at exactly `K - J`. -/
theorem count_conservation (cfg : UnionTxPriority) (ins : List (Context × PoolTx))
    (rem : List PoolTx) (mK : Mempool)
    (hins : insertAll cfg Mempool.empty ins = .ok mK)
    (hd : (ins.map (fun ip => ip.2.signer)).Nodup)
    (hr : (rem.map (fun p => p.signer)).Nodup)
    (hsub : ∀ r ∈ rem, r.signer ∈ ins.map (fun ip => ip.2.signer)) :
    CountTx mK = ins.length ∧ rem.length ≤ ins.length ∧
    ∃ mJ, removeAll mK rem = .ok mJ ∧ CountTx mJ = ins.length - rem.length := by
  obtain ⟨S2, ht, hlen, hmem, hsome⟩ :=
    insertAll_tracks cfg ins Mempool.empty mK [] Mempool.empty_tracks hins hd (by simp)
  simp only [List.length_nil, Nat.zero_add] at hlen
  have hsub2 : ∀ r ∈ rem, ∃ k, r.signer = some k ∧ k ∈ S2 := by
    intro r hr2
    obtain ⟨k, hk⟩ := hsome _ (hsub r hr2)
    refine ⟨k, hk, (hmem k).2 (Or.inr ?_)⟩
    rw [← hk]
    exact hsub r hr2
  obtain ⟨mJ, h1, h2⟩ := removeAll_tracks rem mK S2 ht hr hsub2
  refine ⟨by rw [CountTx, ht.2.2, hlen], ?_, mJ, h1, by rw [h2, hlen]⟩
  have hle : (rem.map (fun p => p.signer)).length ≤ (ins.map (fun ip => ip.2.signer)).length := by
    apply List.Subperm.length_le
    apply List.subperm_of_subset hr
    intro o ho
    obtain ⟨r, hr2, hro⟩ := List.mem_map.1 ho
    rw [← hro]
    exact hsub r hr2
  simpa using hle

/-- Witness of C14: the three inserts of `sampleInserts`, then two removals. -/
theorem count_conservation_witness :
    CountTx sampleInserted = sampleInserts.length ∧
    ([⟨⟨.ok [[1]], 0⟩, some ([0], 1), 0, [11]⟩,
      ⟨⟨.ok [[1]], 0⟩, some ([0], 0), 0, [10]⟩] : List PoolTx).length ≤ sampleInserts.length ∧
    ∃ mJ, removeAll sampleInserted
        [⟨⟨.ok [[1]], 0⟩, some ([0], 1), 0, [11]⟩, ⟨⟨.ok [[1]], 0⟩, some ([0], 0), 0, [10]⟩]
        = .ok mJ ∧
      CountTx mJ = sampleInserts.length -
        ([⟨⟨.ok [[1]], 0⟩, some ([0], 1), 0, [11]⟩,
          ⟨⟨.ok [[1]], 0⟩, some ([0], 0), 0, [10]⟩] : List PoolTx).length :=
  count_conservation (mempoolTxPriority sampleCodec ["a"]) sampleInserts
    [⟨⟨.ok [[1]], 0⟩, some ([0], 1), 0, [11]⟩, ⟨⟨.ok [[1]], 0⟩, some ([0], 0), 0, [10]⟩]
    sampleInserted rfl (by decide) (by decide) (by decide)

end UnionApp

namespace UnionApp

/-! ## Gap enforcement -/

theorem executableOf_filter_ne (index : List Entry) (S : Address) :
    (index.filter (fun x => decide (x.sender ≠ S))).filter (fun x => decide (x.sender = S)) = [] := by
  rw [List.filter_eq_nil_iff]
  intro a ha
  have := (List.mem_filter.1 ha).2
  simpa using this

/-- C15 (gap enforcement): for a sender `S` with no entries and no index entry,
`n` being the nonce the mempool expects next from `S`, after the insert of
nonce `n + 1` no entry of `S` is executable and `Select` yields no entry of `S`;
after the insert of nonce `n` exactly one entry of `S`, the one with nonce `n`,
is executable; and after the removal of nonce `n` the entry with nonce `n + 1`
is the executable one. -/
theorem gap_enforcement (cfg : UnionTxPriority) (m : Mempool) (S : Address) (n : Nat)
    (ctx1 ctx0 : Context) (p1 p0 : PoolTx) (pr1 pr0 : Int)
    (hk : m.Keyed) (hempty : (m.queues S).entries = [])
    (hexp : (m.queues S).expectedNonce = n) (hidx : executableOf m S = [])
    (hs1 : p1.signer = some (S, n + 1)) (hs0 : p0.signer = some (S, n))
    (hg1 : cfg.GetTxPriority ctx1 p1.tx = .ok pr1)
    (hg0 : cfg.GetTxPriority ctx0 p0.tx = .ok pr0) :
    ∃ m1 m2 m3,
      Insert cfg m ctx1 p1 = .ok m1 ∧
      executableOf m1 S = [] ∧ (m1.queues S).head = none ∧
      (∀ e ∈ SelectEntries cfg m1, e.sender ≠ S) ∧
      Insert cfg m1 ctx0 p0 = .ok m2 ∧
      executableOf m2 S = [⟨S, n, pr0, p0.tieBreak, p0.payload⟩] ∧
      (m2.queues S).head = some ⟨S, n, pr0, p0.tieBreak, p0.payload⟩ ∧
      Remove m2 p0 = .ok m3 ∧
      executableOf m3 S = [⟨S, n + 1, pr1, p1.tieBreak, p1.payload⟩] ∧
      (m3.queues S).head = some ⟨S, n + 1, pr1, p1.tieBreak, p1.payload⟩ := by
  have hne : ¬ (n + 1 = n) := by omega
  have h1 : ∃ m1, Insert cfg m ctx1 p1 = .ok m1 ∧
      m1.queues = (fun s => if s = S then ⟨[⟨S, n + 1, pr1, p1.tieBreak, p1.payload⟩], n⟩
        else m.queues s) ∧ m1.index = m.index := by
    refine ⟨⟨fun s => if s = S then ⟨[⟨S, n + 1, pr1, p1.tieBreak, p1.payload⟩], n⟩
        else m.queues s, m.index, m.totalCount + 1⟩, ?_, rfl, rfl⟩
    simp [Insert, hs1, hg1, hempty, hexp, queueInsert, hne]
  obtain ⟨m1, hi1, hq1, hx1⟩ := h1
  have hex1 : executableOf m1 S = [] := by
    unfold executableOf
    rw [hx1]
    exact hidx
  have hhead1 : (m1.queues S).head = none := by
    simp [hq1, SenderQueue.head, SenderQueue.entryAt]
  have hsel1 : ∀ e ∈ SelectEntries cfg m1, e.sender ≠ S := by
    intro e he hse
    obtain ⟨item, hitem, hie⟩ := List.mem_map.1 he
    have hk1 := (Insert_keyed cfg m m1 ctx1 p1 hk hi1).2
    obtain ⟨x, hx, hxs, _⟩ := selectLoop_origin cfg.Compare m1 hk1 _ _ item hitem
    have : x ∈ executableOf m1 S := by
      unfold executableOf
      rw [List.mem_filter]
      refine ⟨hx, ?_⟩
      rw [hie] at hxs
      simp [hxs, hse]
    rw [hex1] at this
    simp at this
  have h2 : ∃ m2, Insert cfg m1 ctx0 p0 = .ok m2 ∧
      m2.queues = (fun s => if s = S then
        ⟨[⟨S, n, pr0, p0.tieBreak, p0.payload⟩, ⟨S, n + 1, pr1, p1.tieBreak, p1.payload⟩], n⟩
        else m.queues s) ∧ m2.index = upsert m.index ⟨S, n, pr0, p0.tieBreak, p0.payload⟩ := by
    refine ⟨⟨fun s => if s = S then
        ⟨[⟨S, n, pr0, p0.tieBreak, p0.payload⟩, ⟨S, n + 1, pr1, p1.tieBreak, p1.payload⟩], n⟩
        else m.queues s, upsert m.index ⟨S, n, pr0, p0.tieBreak, p0.payload⟩,
        m1.totalCount + 1⟩, ?_, rfl, rfl⟩
    simp [Insert, hs0, hg0, queueInsert, hq1, hx1]
    funext s
    by_cases h : s = S <;> simp [h]
  obtain ⟨m2, hi0, hq2, hx2⟩ := h2
  have hex2 : executableOf m2 S = [⟨S, n, pr0, p0.tieBreak, p0.payload⟩] := by
    simp [executableOf, hx2, upsert, executableOf_filter_ne]
  have hhead2 : (m2.queues S).head = some ⟨S, n, pr0, p0.tieBreak, p0.payload⟩ := by
    simp [hq2, SenderQueue.head, SenderQueue.entryAt]
  have hrem := Remove_present m2 p0 S n ⟨S, n, pr0, p0.tieBreak, p0.payload⟩ hs0
    (by simp [hq2, SenderQueue.entryAt])
  refine ⟨m1, m2, removeAt m2 S n, hi1, hex1, hhead1, hsel1, hi0, hex2, hhead2, hrem, ?_, ?_⟩
  · simp [executableOf, removeAt, hq2, hx2, SenderQueue.remove, SenderQueue.head,
      SenderQueue.entryAt, upsert, executableOf_filter_ne]
  · simp [removeAt, hq2, SenderQueue.remove, SenderQueue.head, SenderQueue.entryAt]

/-- Witness of C15: the sender `[1]` in the empty mempool, whose expected nonce
is `n = 0`. -/
theorem gap_enforcement_witness :
    ∃ m1 m2 m3,
      Insert (mempoolTxPriority sampleCodec ["a"]) Mempool.empty ⟨5⟩
        ⟨⟨.ok [[1]], 0⟩, some ([1], 0 + 1), 0, [11]⟩ = .ok m1 ∧
      executableOf m1 [1] = [] ∧ (m1.queues [1]).head = none ∧
      (∀ e ∈ SelectEntries (mempoolTxPriority sampleCodec ["a"]) m1, e.sender ≠ [1]) ∧
      Insert (mempoolTxPriority sampleCodec ["a"]) m1 ⟨7⟩
        ⟨⟨.ok [[1]], 0⟩, some ([1], 0), 0, [10]⟩ = .ok m2 ∧
      executableOf m2 [1] = [⟨[1], 0, 7, 0, [10]⟩] ∧
      (m2.queues [1]).head = some ⟨[1], 0, 7, 0, [10]⟩ ∧
      Remove m2 ⟨⟨.ok [[1]], 0⟩, some ([1], 0), 0, [10]⟩ = .ok m3 ∧
      executableOf m3 [1] = [⟨[1], 0 + 1, 5, 0, [11]⟩] ∧
      (m3.queues [1]).head = some ⟨[1], 0 + 1, 5, 0, [11]⟩ :=
  gap_enforcement (mempoolTxPriority sampleCodec ["a"]) Mempool.empty [1] 0 ⟨5⟩ ⟨7⟩
    ⟨⟨.ok [[1]], 0⟩, some ([1], 0 + 1), 0, [11]⟩ ⟨⟨.ok [[1]], 0⟩, some ([1], 0), 0, [10]⟩ 5 7
    (fun s x hx => by simp [Mempool.empty] at hx) rfl rfl rfl rfl rfl rfl rfl

end UnionApp

namespace UnionApp

/-! ## Module account addresses -/

theorem rangeLoop_hit (moduleAddress : String → String) (keys : List String) (m : AddrMap)
    (k : String) (h : ∃ acc ∈ keys, moduleAddress acc = k) :
    rangeLoop moduleAddress keys m k = some true := by
  induction keys generalizing m with
  | nil =>
    obtain ⟨acc, hacc, _⟩ := h
    simp at hacc
  | cons a rest ih =>
    simp only [rangeLoop]
    by_cases hr : ∃ acc ∈ rest, moduleAddress acc = k
    · exact ih _ hr
    · obtain ⟨acc, hacc, hk⟩ := h
      rcases List.mem_cons.1 hacc with h1 | h1
      · subst h1
        have hkeep : ∀ (l : List String) (m2 : AddrMap), m2 k = some true →
            rangeLoop moduleAddress l m2 k = some true := by
          intro l
          induction l with
          | nil => intro m2 h2; exact h2
          | cons b r ihr =>
            intro m2 h2
            simp only [rangeLoop]
            apply ihr
            by_cases hb : k = moduleAddress b
            · simp [AddrMap.set, hb]
            · simp [AddrMap.set, hb, h2]
        apply hkeep
        simp [AddrMap.set, hk]
      · exact absurd ⟨acc, h1, hk⟩ hr

theorem rangeLoop_miss (moduleAddress : String → String) (keys : List String) (m : AddrMap)
    (k : String) (h : ¬ ∃ acc ∈ keys, moduleAddress acc = k) :
    rangeLoop moduleAddress keys m k = m k := by
  induction keys generalizing m with
  | nil => rfl
  | cons a rest ih =>
    simp only [rangeLoop]
    have hr : ¬ ∃ acc ∈ rest, moduleAddress acc = k := by
      rintro ⟨acc, hacc, hk⟩
      exact h ⟨acc, List.mem_cons_of_mem a hacc, hk⟩
    rw [ih _ hr]
    have ha : ¬ k = moduleAddress a := fun hk => h ⟨a, List.mem_cons_self a rest, hk.symm⟩
    simp [AddrMap.set, ha]

/-- C16 (module account addresses): `ModuleAccountAddrs` holds the value `true` at
the module address of every key of `maccPerms` and has no other key, in
whatever order the keys are visited; `BlockedModuleAccountAddrs` holds the
value `true` at exactly the addresses that are the module address of some key
of `maccPerms` and are not the module address of the gov module, and has no
other key. -/
theorem BlockedModuleAccountAddrs_spec (c : Names) (moduleAddress : String → String)
    (k : String) :
    (ModuleAccountAddrs c moduleAddress k = some true ↔
      ∃ acc ∈ (maccPerms c).map (fun kv => kv.1), moduleAddress acc = k) ∧
    (ModuleAccountAddrs c moduleAddress k = none ↔
      ¬ ∃ acc ∈ (maccPerms c).map (fun kv => kv.1), moduleAddress acc = k) ∧
    (BlockedModuleAccountAddrs c moduleAddress k = some true ↔
      (∃ acc ∈ (maccPerms c).map (fun kv => kv.1), moduleAddress acc = k) ∧
        k ≠ moduleAddress c.govtypes) ∧
    (BlockedModuleAccountAddrs c moduleAddress k = none ↔
      ¬ ((∃ acc ∈ (maccPerms c).map (fun kv => kv.1), moduleAddress acc = k) ∧
        k ≠ moduleAddress c.govtypes)) ∧
    (∀ v, BlockedModuleAccountAddrs c moduleAddress k = some v → v = true) ∧
    (∀ keys : List String, keys.Perm ((maccPerms c).map (fun kv => kv.1)) →
      rangeLoop moduleAddress keys AddrMap.make k = ModuleAccountAddrs c moduleAddress k) := by
  have hM : (∃ acc ∈ (maccPerms c).map (fun kv => kv.1), moduleAddress acc = k) →
      ModuleAccountAddrs c moduleAddress k = some true :=
    fun h => rangeLoop_hit moduleAddress _ AddrMap.make k h
  have hN : (¬ ∃ acc ∈ (maccPerms c).map (fun kv => kv.1), moduleAddress acc = k) →
      ModuleAccountAddrs c moduleAddress k = none :=
    fun h => rangeLoop_miss moduleAddress _ AddrMap.make k h
  have hB1 : k = moduleAddress c.govtypes → BlockedModuleAccountAddrs c moduleAddress k = none := by
    intro hg
    simp only [BlockedModuleAccountAddrs, AddrMap.delete, hg, if_true]
  have hB2 : k ≠ moduleAddress c.govtypes →
      BlockedModuleAccountAddrs c moduleAddress k = ModuleAccountAddrs c moduleAddress k := by
    intro hg
    simp only [BlockedModuleAccountAddrs, AddrMap.delete, hg, if_false]
  refine ⟨⟨?_, hM⟩, ⟨?_, hN⟩, ⟨?_, ?_⟩, ⟨?_, ?_⟩, ?_, ?_⟩
  · intro h
    by_contra hn
    rw [hN hn] at h
    cases h
  · intro h hc
    rw [hM hc] at h
    cases h
  · intro h
    have hg : k ≠ moduleAddress c.govtypes := by
      intro hg
      rw [hB1 hg] at h
      cases h
    refine ⟨?_, hg⟩
    by_contra hn
    rw [hB2 hg, hN hn] at h
    cases h
  · rintro ⟨hc, hg⟩
    rw [hB2 hg]
    exact hM hc
  · rintro h ⟨hc, hg⟩
    rw [hB2 hg, hM hc] at h
    cases h
  · intro hn
    by_cases hg : k = moduleAddress c.govtypes
    · exact hB1 hg
    · rw [hB2 hg]
      exact hN (fun hc => hn ⟨hc, hg⟩)
  · intro v hv
    by_cases hg : k = moduleAddress c.govtypes
    · rw [hB1 hg] at hv
      cases hv
    · rw [hB2 hg] at hv
      by_cases hc : ∃ acc ∈ (maccPerms c).map (fun kv => kv.1), moduleAddress acc = k
      · rw [hM hc] at hv
        injection hv with hv
        exact hv.symm
      · rw [hN hc] at hv
        cases hv
  · intro keys hp
    by_cases hc : ∃ acc ∈ (maccPerms c).map (fun kv => kv.1), moduleAddress acc = k
    · rw [hM hc]
      apply rangeLoop_hit
      obtain ⟨acc, hacc, hk⟩ := hc
      exact ⟨acc, hp.mem_iff.2 hacc, hk⟩
    · rw [hN hc, rangeLoop_miss]
      · rfl
      · rintro ⟨acc, hacc, hk⟩
        exact hc ⟨acc, hp.mem_iff.1 hacc, hk⟩

end UnionApp

namespace UnionApp

/-! ## Module orders -/

/-- C17 (capability first): the list used for both InitGenesis and ExportGenesis
starts with the capability module, which is thus at position 0, before the
position of every other module name of the list. -/
theorem genesis_capability_first (c : Names) :
    (NewUnionApp.ModuleManager c).OrderInitGenesis.head? = some c.capabilitytypes ∧
    (NewUnionApp.ModuleManager c).OrderExportGenesis.head? = some c.capabilitytypes ∧
    (NewUnionApp.ModuleManager c).OrderInitGenesis.indexOf c.capabilitytypes = 0 ∧
    (∀ x, x ≠ c.capabilitytypes →
      (NewUnionApp.ModuleManager c).OrderInitGenesis.indexOf c.capabilitytypes
        < (NewUnionApp.ModuleManager c).OrderInitGenesis.indexOf x) := by
  refine ⟨rfl, rfl, ?_, ?_⟩
  · simp [NewUnionApp.ModuleManager, genesisModuleOrder]
  · intro x hx
    have h0 : List.indexOf c.capabilitytypes (genesisModuleOrder c) = 0 := by
      simp [genesisModuleOrder]
    have h1 : 0 < List.indexOf x (genesisModuleOrder c) := by
      unfold genesisModuleOrder
      rw [List.indexOf_cons_ne _ (fun h => hx h.symm)]
      exact Nat.succ_pos _
    show List.indexOf c.capabilitytypes (genesisModuleOrder c)
      < List.indexOf x (genesisModuleOrder c)
    omega

/-- The position of an entry of a list without duplicates. -/
theorem indexOf_of_getElem (l : List String) (hl : l.Nodup) (i : Nat) (x : String)
    (h : l[i]? = some x) : l.indexOf x = i ∧ l.count x = 1 := by
  obtain ⟨hi, hx⟩ := List.getElem?_eq_some.1 h
  subst hx
  exact ⟨List.indexOf_getElem hl i hi, List.count_eq_one_of_mem hl (List.getElem_mem hi)⟩

/-- C18 (genutil after staking): when the module names of `genesisModuleOrder` are
pairwise distinct, staking occurs exactly once, at position 5, genutil occurs
exactly once, at the later position 9, and the same list is the argument of
both `SetOrderInitGenesis` and `SetOrderExportGenesis`. -/
theorem genesis_genutil_after_staking (c : Names) (hc : (genesisModuleOrder c).Nodup) :
    (genesisModuleOrder c).indexOf c.stakingtypes = 5 ∧
    (genesisModuleOrder c).indexOf c.genutiltypes = 9 ∧
    (genesisModuleOrder c).indexOf c.stakingtypes
      < (genesisModuleOrder c).indexOf c.genutiltypes ∧
    (genesisModuleOrder c).count c.stakingtypes = 1 ∧
    (genesisModuleOrder c).count c.genutiltypes = 1 ∧
    (NewUnionApp.ModuleManager c).OrderInitGenesis = genesisModuleOrder c ∧
    (NewUnionApp.ModuleManager c).OrderExportGenesis = genesisModuleOrder c := by
  have h5 := indexOf_of_getElem (genesisModuleOrder c) hc 5 c.stakingtypes rfl
  have h9 := indexOf_of_getElem (genesisModuleOrder c) hc 9 c.genutiltypes rfl
  refine ⟨h5.1, h9.1, ?_, h5.2, h9.2, rfl, rfl⟩
  rw [h5.1, h9.1]
  decide

/-- Witness of C18: the names of the imported packages are pairwise distinct. -/
theorem genesis_genutil_after_staking_witness :
    (genesisModuleOrder sdkNames).indexOf sdkNames.stakingtypes = 5 ∧
    (genesisModuleOrder sdkNames).indexOf sdkNames.genutiltypes = 9 ∧
    (genesisModuleOrder sdkNames).indexOf sdkNames.stakingtypes
      < (genesisModuleOrder sdkNames).indexOf sdkNames.genutiltypes ∧
    (genesisModuleOrder sdkNames).count sdkNames.stakingtypes = 1 ∧
    (genesisModuleOrder sdkNames).count sdkNames.genutiltypes = 1 ∧
    (NewUnionApp.ModuleManager sdkNames).OrderInitGenesis = genesisModuleOrder sdkNames ∧
    (NewUnionApp.ModuleManager sdkNames).OrderExportGenesis = genesisModuleOrder sdkNames :=
  genesis_genutil_after_staking sdkNames (by decide)

/-- C19 (slashing after distribution): when the module names passed to
`SetOrderBeginBlockers` are pairwise distinct, distribution is at position 2
and slashing at the later position 4 of the begin-blocker order. -/
theorem begin_slashing_after_distr (c : Names) (hc : (orderBeginBlockers c).Nodup) :
    (NewUnionApp.ModuleManager c).OrderBeginBlockers.indexOf c.distrtypes = 2 ∧
    (NewUnionApp.ModuleManager c).OrderBeginBlockers.indexOf c.slashingtypes = 4 ∧
    (NewUnionApp.ModuleManager c).OrderBeginBlockers.indexOf c.distrtypes
      < (NewUnionApp.ModuleManager c).OrderBeginBlockers.indexOf c.slashingtypes := by
  have h2 := indexOf_of_getElem (orderBeginBlockers c) hc 2 c.distrtypes rfl
  have h4 := indexOf_of_getElem (orderBeginBlockers c) hc 4 c.slashingtypes rfl
  show List.indexOf c.distrtypes (orderBeginBlockers c) = 2 ∧
    List.indexOf c.slashingtypes (orderBeginBlockers c) = 4 ∧
    List.indexOf c.distrtypes (orderBeginBlockers c)
      < List.indexOf c.slashingtypes (orderBeginBlockers c)
  refine ⟨h2.1, h4.1, ?_⟩
  rw [h2.1, h4.1]
  decide

/-- Witness of C19: the names of the imported packages are pairwise distinct. -/
theorem begin_slashing_after_distr_witness :
    (NewUnionApp.ModuleManager sdkNames).OrderBeginBlockers.indexOf sdkNames.distrtypes = 2 ∧
    (NewUnionApp.ModuleManager sdkNames).OrderBeginBlockers.indexOf sdkNames.slashingtypes = 4 ∧
    (NewUnionApp.ModuleManager sdkNames).OrderBeginBlockers.indexOf sdkNames.distrtypes
      < (NewUnionApp.ModuleManager sdkNames).OrderBeginBlockers.indexOf
          sdkNames.slashingtypes :=
  begin_slashing_after_distr sdkNames (by decide)

end UnionApp

namespace UnionApp

/-! ## The override is a fixed value -/

/-- When the closure returns on a transaction with a listed signer, it returns
100 under every default policy and in every context. -/
theorem GetTxPriority_listed_any_parent (codec : AddressCodec) (prio : List String)
    (parent parent2 : TxPriority) (goCtx ctx2 : Context) (tx : Tx) (v : Int)
    (hl : hasListedSigner codec prio tx = true)
    (hr : GetTxPriority codec prio parent goCtx tx = .ok v) :
    GetTxPriority codec prio parent2 ctx2 tx = .ok 100 := by
  unfold hasListedSigner at hl
  unfold GetTxPriority at hr ⊢
  cases hs : tx.GetSenders with
  | error e => simp [hs] at hl
  | ok senders =>
    simp only [hs] at hl hr ⊢
    cases hloop : senderLoop codec prio senders with
    | error e => simp [hloop] at hr
    | ok o =>
      cases o with
      | none =>
        have := senderLoop_none_any codec prio senders hloop
        rw [this] at hl
        exact absurd hl (by decide)
      | some x =>
        have := senderLoop_some codec prio senders x hloop
        subst this
        rfl

/-- Whenever the closure returns on a transaction with a signer in the list, the
result is 100 under every default policy and in every context, also when the
default policy gives more than 100; and it ranks strictly below every
transaction without listed signer on which the closure returns a default
priority above 100. -/
theorem override_fixed (codec : AddressCodec) (prio : List String)
    (ctx1 ctx2 : Context) (t1 t2 : Tx) (v1 v2 : Int)
    (h1 : hasListedSigner codec prio t1 = true)
    (hr1 : (mempoolTxPriority codec prio).GetTxPriority ctx1 t1 = .ok v1)
    (hp : 100 < NewDefaultTxPriority.GetTxPriority ctx1 t1)
    (h2 : hasListedSigner codec prio t2 = false)
    (hr2 : (mempoolTxPriority codec prio).GetTxPriority ctx2 t2 = .ok v2)
    (hq : 100 < NewDefaultTxPriority.GetTxPriority ctx2 t2) :
    v1 = 100 ∧
    (∀ (parent : TxPriority) (goCtx : Context),
      GetTxPriority codec prio parent goCtx t1 = .ok 100) ∧
    v1 ≠ NewDefaultTxPriority.GetTxPriority ctx1 t1 ∧
    v2 = NewDefaultTxPriority.GetTxPriority ctx2 t2 ∧
    (mempoolTxPriority codec prio).Compare v1 v2 < 0 ∧
    (mempoolTxPriority codec prio).Compare v2 v1 > 0 := by
  have e1 := GetTxPriority_listed codec prio NewDefaultTxPriority ctx1 t1 v1 h1 hr1
  have e2 := GetTxPriority_unlisted codec prio NewDefaultTxPriority ctx2 t2 v2 h2 hr2
  refine ⟨e1, ?_, ?_, e2, ?_, ?_⟩
  · intro parent goCtx
    exact GetTxPriority_listed_any_parent codec prio NewDefaultTxPriority parent ctx1 goCtx
      t1 v1 h1 hr1
  · omega
  · rw [← e2] at hq
    subst e1
    have : ¬ ((100 : Int) > v2) := by omega
    have h3 : ¬ ((100 : Int) = v2) := by omega
    simp [mempoolTxPriority, NewDefaultTxPriority, Int64Compare, this, h3]
  · rw [← e2] at hq
    subst e1
    show Int64Compare v2 100 > 0
    rw [Int64Compare_pos_iff]
    omega

/-- Example of `override_fixed`: the listed transaction has default priority 500,
the unlisted one has default priority 101. -/
theorem override_fixed_witness :
    (100 : Int) = 100 ∧
    (∀ (parent : TxPriority) (goCtx : Context),
      GetTxPriority sampleCodec ["a"] parent goCtx ⟨.ok [[0]], 1⟩ = .ok 100) ∧
    (100 : Int) ≠ NewDefaultTxPriority.GetTxPriority ⟨500⟩ ⟨.ok [[0]], 1⟩ ∧
    (101 : Int) = NewDefaultTxPriority.GetTxPriority ⟨101⟩ ⟨.ok [[1]], 2⟩ ∧
    (mempoolTxPriority sampleCodec ["a"]).Compare 100 101 < 0 ∧
    (mempoolTxPriority sampleCodec ["a"]).Compare 101 100 > 0 :=
  override_fixed sampleCodec ["a"] ⟨500⟩ ⟨101⟩ ⟨.ok [[0]], 1⟩ ⟨.ok [[1]], 2⟩ 100 101
    rfl rfl (by decide) rfl rfl (by decide)

end UnionApp

namespace UnionApp

/-! ## The invariants hold in every reachable state -/

theorem SenderUnique_upsert (index : List Entry) (e : Entry) (hu : SenderUnique index) :
    SenderUnique (upsert index e) := by
  unfold upsert SenderUnique
  rw [List.pairwise_cons]
  refine ⟨?_, List.Pairwise.filter _ hu⟩
  intro a ha
  have := (List.mem_filter.1 ha).2
  simp at this
  exact fun h => this h.symm

theorem Insert_senderUnique (cfg : UnionTxPriority) (m m2 : Mempool) (goCtx : Context)
    (p : PoolTx) (hu : SenderUnique m.index) (h : Insert cfg m goCtx p = .ok m2) :
    SenderUnique m2.index := by
  unfold Insert at h
  cases hs : p.signer with
  | none => simp [hs] at h
  | some sn =>
    obtain ⟨sender, nonce⟩ := sn
    simp only [hs] at h
    cases hg : cfg.GetTxPriority goCtx p.tx with
    | error msg => simp [hg] at h
    | ok priority =>
      simp only [hg] at h
      cases hq : queueInsert cfg.Compare ⟨sender, nonce, priority, p.tieBreak, p.payload⟩
          (m.queues sender).entries with
      | none => simp [hq] at h
      | some entries =>
        simp only [hq] at h
        injection h with h
        subst h
        by_cases hn : nonce = (m.queues sender).expectedNonce
        · simp only [hn, if_true]
          exact SenderUnique_upsert _ _ hu
        · simp only [hn, if_false]
          exact hu

theorem Remove_invariants (m m2 : Mempool) (p : PoolTx) (hk : m.Keyed)
    (hu : SenderUnique m.index) (h : Remove m p = .ok m2) :
    m2.Keyed ∧ SenderUnique m2.index := by
  unfold Remove at h
  cases hs : p.signer with
  | none =>
    simp only [hs] at h
    injection h with h
    subst h
    exact ⟨hk, hu⟩
  | some sn =>
    obtain ⟨sender, nonce⟩ := sn
    simp only [hs] at h
    cases he : (m.queues sender).entryAt nonce with
    | none =>
      simp only [he] at h
      injection h with h
      subst h
      exact ⟨hk, hu⟩
    | some x =>
      simp only [he] at h
      injection h with h
      subst h
      constructor
      · intro s y hy
        by_cases hss : s = sender
        · subst hss
          simp only [removeAt, if_true, SenderQueue.remove] at hy
          exact hk s y (List.mem_filter.1 hy).1
        · simp only [removeAt, hss, if_false] at hy
          exact hk s y hy
      · simp only [removeAt]
        by_cases hn : nonce = (m.queues sender).expectedNonce
        · simp only [hn, if_true]
          cases ((m.queues sender).remove (m.queues sender).expectedNonce).head with
          | none => exact List.Pairwise.filter _ hu
          | some hd => exact SenderUnique_upsert _ _ hu
        · simp only [hn, if_false]
          exact hu

end UnionApp

namespace UnionApp

/-! ## The exact failure condition of the closure -/

/-- C21 (exact failure condition): `GetTxPriority` panics, and then with
`"impossible"`, if and only if signer extraction succeeds and some signer fails
to encode while no signer before it encodes to an entry of the priority list;
in every other case, and only then, it returns 100 or the value of the default
policy. In particular a listed first signer gives 100 whatever follows it,
and a first signer that fails to encode gives the panic whatever follows it,
so the outcome depends on the order of the signers. -/
theorem GetTxPriority_panic_iff (codec : AddressCodec) (prio : List String)
    (parent : TxPriority) (goCtx : Context) (tx : Tx) :
    ((∃ msg, GetTxPriority codec prio parent goCtx tx = .error msg) ↔
      ∃ pre s post, tx.GetSenders = .ok (pre ++ s :: post) ∧ (∃ e, codec s = .error e) ∧
        ∀ a ∈ pre, signerListed codec prio a = false) ∧
    (GetTxPriority codec prio parent goCtx tx = .error "impossible" ↔
      ∃ pre s post, tx.GetSenders = .ok (pre ++ s :: post) ∧ (∃ e, codec s = .error e) ∧
        ∀ a ∈ pre, signerListed codec prio a = false) ∧
    ((GetTxPriority codec prio parent goCtx tx = .ok 100 ∨
        GetTxPriority codec prio parent goCtx tx = .ok (parent.GetTxPriority goCtx tx)) ↔
      ¬ ∃ pre s post, tx.GetSenders = .ok (pre ++ s :: post) ∧ (∃ e, codec s = .error e) ∧
        ∀ a ∈ pre, signerListed codec prio a = false) ∧
    (∀ (s : Address) (u : String) (post : List Address) (body : Nat),
      codec s = .ok u → u ∈ prio →
      GetTxPriority codec prio parent goCtx ⟨.ok (s :: post), body⟩ = .ok 100) ∧
    (∀ (b : Address) (e : String) (post : List Address) (body : Nat),
      codec b = .error e →
      GetTxPriority codec prio parent goCtx ⟨.ok (b :: post), body⟩ = .error "impossible") := by
  have hpanic : (∃ pre s post, tx.GetSenders = .ok (pre ++ s :: post) ∧
      (∃ e, codec s = .error e) ∧ ∀ a ∈ pre, signerListed codec prio a = false) →
      GetTxPriority codec prio parent goCtx tx = .error "impossible" := by
    rintro ⟨pre, s, post, hs, he, hpre⟩
    have hl := (senderLoop_error_iff codec prio (pre ++ s :: post)).2
      ⟨pre, s, post, rfl, he, hpre⟩
    simp [GetTxPriority, hs, hl]
  have hret : (¬ ∃ pre s post, tx.GetSenders = .ok (pre ++ s :: post) ∧
      (∃ e, codec s = .error e) ∧ ∀ a ∈ pre, signerListed codec prio a = false) →
      (GetTxPriority codec prio parent goCtx tx = .ok 100 ∨
        GetTxPriority codec prio parent goCtx tx = .ok (parent.GetTxPriority goCtx tx)) := by
    intro hn
    cases hs : tx.GetSenders with
    | error e => right; simp [GetTxPriority, hs]
    | ok senders =>
      rcases senderLoop_cases codec prio senders with hl | hl | hl
      · exfalso
        obtain ⟨pre, s, post, h, he, hpre⟩ := (senderLoop_error_iff codec prio senders).1 hl
        exact hn ⟨pre, s, post, by rw [hs, h], he, hpre⟩
      · left; simp [GetTxPriority, hs, hl]
      · right; simp [GetTxPriority, hs, hl]
  refine ⟨⟨?_, fun h => ⟨"impossible", hpanic h⟩⟩, ⟨?_, hpanic⟩, ⟨?_, hret⟩, ?_, ?_⟩
  · rintro ⟨msg, hmsg⟩
    by_contra hn
    rcases hret hn with h | h
    · rw [h] at hmsg; cases hmsg
    · rw [h] at hmsg; cases hmsg
  · intro h
    by_contra hn
    rcases hret hn with h2 | h2
    · rw [h2] at h; cases h
    · rw [h2] at h; cases h
  · intro h hc
    have h2 := hpanic hc
    rcases h with h | h
    · rw [h2] at h; cases h
    · rw [h2] at h; cases h
  · intro s u post body hu hmem
    have hl := senderLoop_hit codec prio [] post s u (by simp) hu hmem
    simp only [List.nil_append] at hl
    simp [GetTxPriority, hl]
  · intro b e post body hb
    simp [GetTxPriority, senderLoop, hb]

/-- Witness of C21: with the list `["a"]`, the signers `[0]`, `[77]` in this order
give 100, and in the order `[77]`, `[0]` they give the panic. -/
theorem GetTxPriority_panic_iff_witness :
    GetTxPriority sampleCodec ["a"] NewDefaultTxPriority ⟨5⟩ ⟨.ok [[0], [77]], 0⟩ = .ok 100 ∧
    GetTxPriority sampleCodec ["a"] NewDefaultTxPriority ⟨5⟩ ⟨.ok [[77], [0]], 0⟩
      = .error "impossible" :=
  ⟨(GetTxPriority_panic_iff sampleCodec ["a"] NewDefaultTxPriority ⟨5⟩
      ⟨.ok [[0], [77]], 0⟩).2.2.2.1 [0] "a" [[77]] 0 rfl (by decide),
   (GetTxPriority_panic_iff sampleCodec ["a"] NewDefaultTxPriority ⟨5⟩
      ⟨.ok [[77], [0]], 0⟩).2.2.2.2 [77] "encoding failed" [[0]] 0 rfl⟩

end UnionApp

namespace UnionApp

/-! ## Signers longer than 255 bytes

`Bech32Codec.BytesToString`, the codec that `NewUnionApp` installs, returns an
error for an address longer than 255 bytes, so the branch of the closure that
the source marks `panic("impossible")` is reached. -/

theorem Bech32BytesToString_long (CE : String → Address → Except String String)
    (hrp : String) (bz : Address) (h : 255 < bz.length) :
    ∃ e, Bech32BytesToString CE hrp bz = .error e := by
  have h0 : ¬ bz.length = 0 := by omega
  unfold Bech32BytesToString
  cases hc : CE hrp bz with
  | error e => exact ⟨e, by simp [h0]⟩
  | ok t => exact ⟨_, by simp [h0, h]; rfl⟩

theorem Bech32BytesToString_short (CE : String → Address → Except String String)
    (hrp : String) (bz : Address) (u : String) (h0 : bz ≠ []) (h1 : bz.length ≤ 255)
    (hu : CE hrp bz = .ok u) : Bech32BytesToString CE hrp bz = .ok u := by
  have h2 : ¬ bz.length = 0 := by
    intro h
    exact h0 (List.length_eq_zero.1 h)
  have h3 : ¬ bz.length > 255 := by omega
  simp [Bech32BytesToString, h2, hu, h3]

theorem longSigner_length : longSigner.length = 256 := by
  unfold longSigner
  exact List.length_replicate 256 255

/-- With an encoder that never fails, the closure returns on every transaction
whose signers are at most 255 bytes long: the branch marked `"impossible"` is
reached through longer signers only. -/
theorem GetTxPriority_short_signers (CE : String → Address → Except String String)
    (hrp : String) (prio : List String) (parent : TxPriority) (goCtx : Context) (tx : Tx)
    (hCE : ∀ bz, ∃ t, CE hrp bz = .ok t)
    (hshort : ∀ senders, tx.GetSenders = .ok senders → ∀ a ∈ senders, a.length ≤ 255) :
    GetTxPriority (Bech32BytesToString CE hrp) prio parent goCtx tx = .ok 100 ∨
    GetTxPriority (Bech32BytesToString CE hrp) prio parent goCtx tx
      = .ok (parent.GetTxPriority goCtx tx) := by
  cases hs : tx.GetSenders with
  | error e => right; simp [GetTxPriority, hs]
  | ok senders =>
    rcases senderLoop_cases (Bech32BytesToString CE hrp) prio senders with hl | hl | hl
    · exfalso
      obtain ⟨pre, s, post, h, ⟨e, he⟩, _⟩ :=
        (senderLoop_error_iff (Bech32BytesToString CE hrp) prio senders).1 hl
      have hlen : s.length ≤ 255 := hshort senders hs s (by rw [h]; simp)
      by_cases h0 : s = []
      · subst h0
        simp [Bech32BytesToString] at he
      · obtain ⟨t, ht⟩ := hCE s
        rw [Bech32BytesToString_short CE hrp s t h0 hlen ht] at he
        cases he
    · left; simp [GetTxPriority, hs, hl]
    · right; simp [GetTxPriority, hs, hl]

/-- C7, evaluated at the failing input: for every encoder, prefix, priority list,
default policy and context, `Bech32Codec.BytesToString` returns an error on the
signer of 256 bytes and `GetTxPriority` panics with `"impossible"` on the
transaction signed by it: no int64 is returned. -/
theorem GetTxPriority_long_signer_panics (CE : String → Address → Except String String)
    (hrp : String) (prio : List String) (parent : TxPriority) (goCtx : Context) (body : Nat) :
    (∃ e, Bech32BytesToString CE hrp longSigner = .error e) ∧
    GetTxPriority (Bech32BytesToString CE hrp) prio parent goCtx ⟨.ok [longSigner], body⟩
      = .error "impossible" ∧
    ¬ ∃ v : Int,
      GetTxPriority (Bech32BytesToString CE hrp) prio parent goCtx ⟨.ok [longSigner], body⟩
        = .ok v := by
  have hlong := Bech32BytesToString_long CE hrp longSigner (by rw [longSigner_length]; decide)
  obtain ⟨e, he⟩ := hlong
  have hp : GetTxPriority (Bech32BytesToString CE hrp) prio parent goCtx
      ⟨.ok [longSigner], body⟩ = .error "impossible" := by
    simp [GetTxPriority, senderLoop, he]
  refine ⟨⟨e, he⟩, hp, ?_⟩
  rintro ⟨v, hv⟩
  rw [hp] at hv
  cases hv

/-- C4, evaluated at the failing input: `t1` is signed by an address of at most
255 bytes whose encoding is in the list, and gets 100; `t2` is signed by the
signer of 256 bytes, so it has no signer in the list, and its default priority
is below 100; yet `GetTxPriority` panics on `t2`, so there is no priority for
`Compare` to rank below 100. -/
theorem override_dominance_long_signer (CE : String → Address → Except String String)
    (hrp : String) (prio : List String) (ctx1 ctx2 : Context) (s : Address) (u : String)
    (body1 body2 : Nat)
    (hs0 : s ≠ []) (hs1 : s.length ≤ 255) (hu : CE hrp s = .ok u) (hmem : u ∈ prio)
    (hlt : ctx2.priority < 100) :
    hasListedSigner (Bech32BytesToString CE hrp) prio ⟨.ok [s], body1⟩ = true ∧
    (mempoolTxPriority (Bech32BytesToString CE hrp) prio).GetTxPriority ctx1 ⟨.ok [s], body1⟩
      = .ok 100 ∧
    hasListedSigner (Bech32BytesToString CE hrp) prio ⟨.ok [longSigner], body2⟩ = false ∧
    NewDefaultTxPriority.GetTxPriority ctx2 ⟨.ok [longSigner], body2⟩ < 100 ∧
    (mempoolTxPriority (Bech32BytesToString CE hrp) prio).GetTxPriority ctx2
      ⟨.ok [longSigner], body2⟩ = .error "impossible" := by
  have hs := Bech32BytesToString_short CE hrp s u hs0 hs1 hu
  obtain ⟨e, he⟩ := Bech32BytesToString_long CE hrp longSigner
    (by rw [longSigner_length]; decide)
  have hp := (priorityLoop_eq_true_iff u prio).2 hmem
  refine ⟨?_, ?_, ?_, hlt, ?_⟩
  · simp [hasListedSigner, signerListed, hs, hmem]
  · simp [mempoolTxPriority, GetTxPriority, senderLoop, hs, hp]
  · simp [hasListedSigner, signerListed, he]
  · simp [mempoolTxPriority, GetTxPriority, senderLoop, he]

/-- Witness of C4 at the failing input: the encoder `sampleEncode`, the prefix
`"union"`, the listed signer `[1]`. -/
theorem override_dominance_long_signer_witness :
    hasListedSigner (Bech32BytesToString sampleEncode "union") ["union1b"] ⟨.ok [[1]], 1⟩
      = true ∧
    (mempoolTxPriority (Bech32BytesToString sampleEncode "union") ["union1b"]).GetTxPriority
      ⟨5⟩ ⟨.ok [[1]], 1⟩ = .ok 100 ∧
    hasListedSigner (Bech32BytesToString sampleEncode "union") ["union1b"]
      ⟨.ok [longSigner], 2⟩ = false ∧
    NewDefaultTxPriority.GetTxPriority ⟨5⟩ ⟨.ok [longSigner], 2⟩ < 100 ∧
    (mempoolTxPriority (Bech32BytesToString sampleEncode "union") ["union1b"]).GetTxPriority
      ⟨5⟩ ⟨.ok [longSigner], 2⟩ = .error "impossible" :=
  override_dominance_long_signer sampleEncode "union" ["union1b"] ⟨5⟩ ⟨5⟩ [1] "union1b" 1 2
    (by decide) (by decide) rfl (by decide) (by decide)

/-- C20, evaluated at the failing input: the transaction signed by the signer of
256 bytes and then by an address whose encoding is in the list has a signer in
the list, yet `GetTxPriority` does not return 100 on it: it panics at the
first signer. -/
theorem override_fixed_long_signer (CE : String → Address → Except String String)
    (hrp : String) (prio : List String) (parent : TxPriority) (goCtx : Context)
    (s : Address) (u : String) (body : Nat)
    (hs0 : s ≠ []) (hs1 : s.length ≤ 255) (hu : CE hrp s = .ok u) (hmem : u ∈ prio) :
    hasListedSigner (Bech32BytesToString CE hrp) prio ⟨.ok [longSigner, s], body⟩ = true ∧
    GetTxPriority (Bech32BytesToString CE hrp) prio parent goCtx ⟨.ok [longSigner, s], body⟩
      = .error "impossible" ∧
    GetTxPriority (Bech32BytesToString CE hrp) prio parent goCtx ⟨.ok [longSigner, s], body⟩
      ≠ .ok 100 := by
  have hs := Bech32BytesToString_short CE hrp s u hs0 hs1 hu
  obtain ⟨e, he⟩ := Bech32BytesToString_long CE hrp longSigner
    (by rw [longSigner_length]; decide)
  have hp : GetTxPriority (Bech32BytesToString CE hrp) prio parent goCtx
      ⟨.ok [longSigner, s], body⟩ = .error "impossible" := by
    simp [GetTxPriority, senderLoop, he]
  refine ⟨?_, hp, ?_⟩
  · simp [hasListedSigner, signerListed, hs, hmem]
  · rw [hp]
    intro h
    cases h

/-- Witness of C20 at the failing input: the encoder `sampleEncode`, the prefix
`"union"`, the listed signer `[1]`, default priority 500. -/
theorem override_fixed_long_signer_witness :
    hasListedSigner (Bech32BytesToString sampleEncode "union") ["union1b"]
      ⟨.ok [longSigner, [1]], 0⟩ = true ∧
    GetTxPriority (Bech32BytesToString sampleEncode "union") ["union1b"] NewDefaultTxPriority
      ⟨500⟩ ⟨.ok [longSigner, [1]], 0⟩ = .error "impossible" ∧
    GetTxPriority (Bech32BytesToString sampleEncode "union") ["union1b"] NewDefaultTxPriority
      ⟨500⟩ ⟨.ok [longSigner, [1]], 0⟩ ≠ .ok 100 :=
  override_fixed_long_signer sampleEncode "union" ["union1b"] NewDefaultTxPriority ⟨500⟩
    [1] "union1b" 0 (by decide) (by decide) rfl (by decide)

end UnionApp
